/-
Verification of the `printX` console-block renderer of Patisson _AppLauncher.

The development shallowly embeds `patisson_appLauncher/printX.py`:
strings are lists of characters, Python `print` calls become events in an
output trace, and callables become `Except`-valued functions so that raised
errors are explicit.  The text wrapping performed by the renderer through
`textwrap.fill(text, width)` (CPython, default `TextWrapper` settings:
`break_long_words=True`, `break_on_hyphens=True`, `drop_whitespace=True`,
`replace_whitespace=True`, no indents, `max_lines=None`) is embedded
faithfully for ASCII text that contains no tab characters and no run of two
or more consecutive hyphens: tab expansion (`str.expandtabs`) and the
em-dash clauses of `TextWrapper.wordsep_re` are outside the model, while the
single-hyphen compound-word splitting rule is modelled exactly.
-/
import Mathlib

namespace PrintX

/-- Python strings are modelled as lists of characters. -/
abbrev Str := List Char

/-- Convert a Lean string literal to the model representation. -/
def ofStr (s : String) : Str := s.data

/-- The ANSI escape character `"\x1b"`. -/
def escChar : Char := '\x1b'

/-- `colorama.Style.RESET_ALL`. -/
def styleReset : Str := escChar :: ofStr "[0m"

/-- `colorama.Style.BRIGHT`. -/
def styleBright : Str := escChar :: ofStr "[1m"

/-- `colorama.Style.DIM`. -/
def styleDim : Str := escChar :: ofStr "[2m"

/-- `colorama.Fore.GREEN`. -/
def foreGreen : Str := escChar :: ofStr "[32m"

/-- The cursor-up escape sequence `"\033[F"` printed by the renderer. -/
def cursorUp : Str := escChar :: ofStr "[F"

/-- Python `sym * n` for a one-character string: a negative count yields
the empty string. -/
def pyStrMul (c : Char) (n : Int) : Str := List.replicate n.toNat c

/-- Python `s.center(n)` with the default space fill character: if `n` is at
most the length of `s` the string is returned unchanged, otherwise the
margin is split as in CPython (`left = marg/2 + (marg & n & 1)`). -/
def pyCenter (s : Str) (n : Int) : Str :=
  if n ≤ (s.length : Int) then s
  else
    let w := n.toNat
    let marg := w - s.length
    let left := marg / 2 + (if marg % 2 = 1 ∧ w % 2 = 1 then 1 else 0)
    List.replicate left ' ' ++ s ++ List.replicate (marg - left) ' '

/-- The ASCII whitespace characters recognised by `textwrap` (`_whitespace`). -/
def isPyWs (c : Char) : Bool :=
  c == '\t' || c == '\n' || c == '\x0b' || c == '\x0c' || c == '\r' || c == ' '

/-- `TextWrapper._munge_whitespace` restricted to tab-free text: every
recognised whitespace character is replaced by a space. -/
def mungeWhitespace (text : Str) : Str :=
  text.map (fun c => if isPyWs c then ' ' else c)

/-- The `letter` character class `[^\d\W]` of `TextWrapper.wordsep_re`,
for ASCII text: an alphabetic character or an underscore. -/
def isLetterU (c : Char) : Bool := c.isAlpha || c == '_'

/-- `isLetterU` lifted to optional characters (absent characters fail). -/
def isLetterO : Option Char → Bool
  | some c => isLetterU c
  | Option.none => false

/-- Whether `wordsep_re` allows a chunk boundary inside the non-whitespace
run `w` right before index `e`: the character before `e` is a hyphen, the
lookbehind (two letters before the hyphen, or letter-hyphen-letter before
it) holds, and the lookahead (letter, optional hyphen, letter) holds. -/
def hyphenSplitAt (w : Str) (e : Nat) : Bool :=
  (w.get? (e - 1) == some '-')
  && ((decide (3 ≤ e) && isLetterO (w.get? (e - 3)) && isLetterO (w.get? (e - 2)))
      || (decide (4 ≤ e) && isLetterO (w.get? (e - 4))
          && (w.get? (e - 3) == some '-') && isLetterO (w.get? (e - 2))))
  && (isLetterO (w.get? e)
      && (isLetterO (w.get? (e + 1))
          || ((w.get? (e + 1) == some '-') && isLetterO (w.get? (e + 2)))))

/-- The end of the chunk of the non-whitespace run `w` that starts at
index `s`: the first admissible hyphen boundary after `s`, or the end of
the run (the non-greedy `\S+?` of `wordsep_re` stops at the first
alternative that matches). -/
def nextBreak (w : Str) (s : Nat) : Nat :=
  match (List.range' (s + 1) (w.length - (s + 1))).find? (fun e => hyphenSplitAt w e) with
  | some e => e
  | Option.none => w.length

/-- Cut the non-whitespace run `w` into chunks from index `s` on, with
enough fuel (each chunk is nonempty, so `w.length` steps suffice). -/
def chunkWordGo (w : Str) : Nat → Nat → List Str
  | 0, _ => []
  | fuel + 1, s =>
    if s < w.length then
      (w.drop s).take (nextBreak w s - s) :: chunkWordGo w fuel (nextBreak w s)
    else []

/-- Split one non-whitespace run into `wordsep_re` chunks (hyphenated
compound words split right after admissible hyphens). -/
def chunkWord (w : Str) : List Str := chunkWordGo w w.length 0

/-- `c.strip() == ''` for munged ASCII text: every character is a space. -/
def isWsChunk (c : Str) : Bool := c.all (· == ' ')

/-- Split text into maximal runs of spaces and of non-space characters.
`cur` carries the kind and the reversed content of the run being built. -/
def runsAux : Option (Bool × Str) → Str → List Str
  | Option.none, [] => []
  | some (_, acc), [] => [acc.reverse]
  | Option.none, c :: cs => runsAux (some (c == ' ', [c])) cs
  | some (k, acc), c :: cs =>
    if (c == ' ') == k then runsAux (some (k, c :: acc)) cs
    else acc.reverse :: runsAux (some (c == ' ', [c])) cs

/-- Maximal runs of spaces / non-spaces of a munged text. -/
def splitRuns (text : Str) : List Str := runsAux Option.none text

/-- `TextWrapper._split` on munged text: whitespace runs are chunks,
non-whitespace runs are split at admissible hyphen boundaries. -/
def splitChunks (text : Str) : List Str :=
  ((splitRuns text).map (fun r => if isWsChunk r then [r] else chunkWord r)).flatten

/-- The greedy inner loop of `_wrap_chunks`: starting from accumulated
length `curLen`, move chunks to the current line while they fit in `width`.
Returns the chunks taken, the resulting length, and the remaining chunks. -/
def takeGreedy (width : Nat) : Nat → List Str → List Str × Nat × List Str
  | curLen, [] => ([], curLen, [])
  | curLen, c :: cs =>
    if curLen + c.length ≤ width then
      let r := takeGreedy width (curLen + c.length) cs
      (c :: r.1, r.2.1, r.2.2)
    else ([], curLen, c :: cs)

/-- Python `chunk.rfind('-', 0, stop)`: the largest index below
`min stop chunk.length` holding a hyphen, if any. -/
def rfindHyphen (chunk : Str) (stop : Nat) : Option Nat :=
  ((List.range (min stop chunk.length)).filter (fun i => chunk.get? i == some '-')).getLast?

/-- `TextWrapper._handle_long_word` with `break_long_words=True` and
`break_on_hyphens=True`: split the over-long chunk at the last hyphen
before the remaining space if that hyphen is preceded by a non-hyphen, and
otherwise at the remaining space.  Returns the piece put on the current
line and the remainder of the chunk. -/
def handleLongWord (width curLen : Nat) (chunk : Str) : Str × Str :=
  let spaceLeft := if width < 1 then 1 else width - curLen
  let e :=
    if spaceLeft < chunk.length then
      match rfindHyphen chunk spaceLeft with
      | some h =>
        if decide (0 < h) && (chunk.take h).any (fun c => c != '-') then h + 1
        else spaceLeft
      | Option.none => spaceLeft
    else spaceLeft
  (chunk.take e, chunk.drop e)

/-- The leading-whitespace drop of `_wrap_chunks`: the first chunk of a
line is dropped when it is all whitespace and some line was already
emitted. -/
def dropLeadingWs (started : Bool) (chunks : List Str) : List Str :=
  match chunks with
  | [] => chunks
  | c0 :: rest => if isWsChunk c0 && started then rest else chunks

/-- The long-word step of `_wrap_chunks`: when the next chunk is longer
than the whole width, `_handle_long_word` moves a piece of it onto the
current line. -/
def breakLong (width : Nat) (curLine : List Str) (curLen : Nat) (rem : List Str) :
    List Str × List Str :=
  match rem with
  | [] => (curLine, rem)
  | d :: ds =>
    if width < d.length then
      let p := handleLongWord width curLen d
      (curLine ++ [p.1], p.2 :: ds)
    else (curLine, rem)

/-- The trailing-whitespace drop of `_wrap_chunks`: an all-whitespace last
chunk of the current line is removed. -/
def dropTrailingWs (curLine : List Str) : List Str :=
  match curLine.getLast? with
  | some last => if isWsChunk last then curLine.dropLast else curLine
  | Option.none => curLine

/-- One iteration of the `while chunks` loop of `_wrap_chunks` (with the
default empty indents and `max_lines=None`): drop a leading whitespace
chunk unless this is the very first line, fill the line greedily, break an
over-long next chunk, drop a trailing whitespace chunk, and emit the line
if it is nonempty.  `started` tells whether some line was already emitted.
Returns the emitted line (if any) and the remaining chunks. -/
def wrapStep (width : Nat) (started : Bool) (chunks : List Str) : Option Str × List Str :=
  let chunks1 := dropLeadingWs started chunks
  let g := takeGreedy width 0 chunks1
  let s2 := breakLong width g.1 g.2.1 g.2.2
  let curLine := dropTrailingWs s2.1
  (if curLine.isEmpty then Option.none else some curLine.flatten, s2.2)

/-- The `while chunks` loop of `_wrap_chunks`, fuelled (every iteration on
nonempty chunks strictly decreases `chunksMeasure`, so the fuel chosen by
`wrapChunks` always suffices).  Emitted lines are accumulated in reverse. -/
def wrapLoop (width : Nat) : Nat → List Str → List Str → List Str
  | 0, _, lines => lines.reverse
  | fuel + 1, chunks, lines =>
    if chunks.isEmpty then lines.reverse
    else
      match wrapStep width (!lines.isEmpty) chunks with
      | (some ln, rem) => wrapLoop width fuel rem (ln :: lines)
      | (Option.none, rem) => wrapLoop width fuel rem lines

/-- Termination measure of the wrap loop: total character count plus the
number of chunks. -/
def chunksMeasure (chunks : List Str) : Nat :=
  (chunks.map List.length).sum + chunks.length

/-- `TextWrapper._wrap_chunks`: raises `ValueError` when `width ≤ 0`,
otherwise runs the wrap loop to completion. -/
def wrapChunks (width : Int) (chunks : List Str) : Except Unit (List Str) :=
  if width ≤ 0 then .error ()
  else .ok (wrapLoop width.toNat (chunksMeasure chunks + 1) chunks [])

/-- `textwrap.fill(text, width).splitlines()` as used by the renderer:
the list of wrapped lines.  (`fill` joins the lines of `wrap` with
newlines and `splitlines` recovers them: emitted lines are nonempty and
contain no newline, so the composition is the list produced by `wrap`.) -/
def fillLines (text : Str) (width : Int) : Except Unit (List Str) :=
  wrapChunks width (splitChunks (mungeWhitespace text))

end PrintX

/-! ### The `printX` data model and renderer -/

namespace PrintX

/-- `BlockType` of `printX.py`. -/
inductive BlockType where
  | HEAD
  | BODY
  | TAIL
deriving DecidableEq, Repr

/-- One element of a `Block`'s `text` sequence: a plain string, or a pair
of a string and an embedded zero-argument action.  The action is modelled
by its outcome: `.ok` (its return value is discarded by the renderer) or
`.error e` for a raised exception `e`. -/
inductive Item (ε : Type) where
  | plain (s : Str)
  | withAct (s : Str) (act : Except ε Unit)

/-- The string portion of an item. -/
def Item.str : Item ε → Str
  | .plain s => s
  | .withAct s _ => s

/-- One observable step of a render: a `print(s)` call, the invocation of
the embedded action of the item at a given index of `text`, or the
invocation of the block's top-level `func`. -/
inductive Event where
  | out (s : Str)
  | invokeInline (item : Nat)
  | invokeFunc
deriving DecidableEq, Repr

/-- An error escaping from a render: the `ValueError` raised by
`textwrap.fill` on a non-positive width, or an error raised by one of the
configured callables. -/
inductive RenderErr (ε : Type) where
  | invalidWidth
  | act (e : ε)
deriving DecidableEq, Repr

/-- The outcome of invoking a block: the events printed before returning
or before the escaping error, and the returned value or the error. -/
structure ROut (ε ρ : Type) where
  events : List Event
  result : Except (RenderErr ε) ρ

/-- The `Block` object after `__init__`: a top-level callable `func` taking
the invocation arguments (modelled by one value of type `α`), the `text`
items, the `width`, the `block_type` and the `styles` string. -/
structure Block (α ε ρ : Type) where
  func : α → Except ε ρ
  text : List (Item ε)
  width : Int
  block_type : BlockType
  styles : Str

/-- `printX.none`: the default `func`, accepting any arguments and
returning `None` (modelled by `Unit.unit`). -/
def noneF : α → Except ε Unit := fun _ => .ok Unit.unit

/-- `Block.get_styles_by_block_type`: `Style.BRIGHT + ""` for `HEAD` and
`TAIL`, `""` for `BODY`. -/
def Block.get_styles_by_block_type : BlockType → Str
  | .HEAD => styleBright ++ []
  | .BODY => []
  | .TAIL => styleBright ++ []

/-- `Block.__init__`: `width` defaults to the terminal width (passed in as
`terminalWidth`, the value of `shutil.get_terminal_size().columns`), and
`styles` defaults by block type.  No other computation is performed. -/
def Block.init (text : List (Item ε)) (width : Option Int) (block_type : BlockType)
    (styles : Option Str) (func : α → Except ε ρ) (terminalWidth : Int) : Block α ε ρ :=
  { func := func
    text := text
    width := width.getD terminalWidth
    styles := styles.getD (Block.get_styles_by_block_type block_type)
    block_type := block_type }

/-- `Block.get_vline`. -/
def Block.get_vline (b : Block α ε ρ) : Str :=
  styleReset ++ b.styles ++ ofStr "|" ++ styleReset

/-- `Block.get_hline` (the edge symbol is a string, `"+"` by default; the
`BODY` variant passes the whole styled vertical line). -/
def Block.get_hline (width : Int) (edge_sym : Str) : Str :=
  edge_sym ++ pyStrMul '-' (width - 2) ++ edge_sym

/-- `Block.get_success_str` with the default text `"success"`. -/
def Block.get_success_str (width : Int) : Str :=
  styleReset ++ styleBright ++ foreGreen ++ pyCenter (ofStr "success") (width - 2) ++ styleReset

/-- The line printed for one wrapped line of a plain string item. -/
def plainLineEvent (b : Block α ε ρ) (line : Str) : Event :=
  .out (b.get_vline ++ b.styles ++ pyCenter line (b.width - 2) ++ b.get_vline)

/-- The line printed for one wrapped line of a `(string, action)` item
(the `Style.DIM` sub-style is added). -/
def dimLineEvent (b : Block α ε ρ) (line : Str) : Event :=
  .out (b.get_vline ++ b.styles ++ styleDim ++ pyCenter line (b.width - 2) ++ b.get_vline)

/-- The centered success label printed by the body after an inline action. -/
def successLineEvent (b : Block α ε ρ) : Event :=
  .out (b.styles ++ b.get_vline ++ Block.get_success_str b.width ++ b.get_vline)

/-- The dashed separator printed by the body after an inline action. -/
def sepLineEvent (b : Block α ε ρ) : Event :=
  .out (b.get_vline ++ b.styles ++ styleDim
    ++ pyCenter (ofStr "|" ++ pyStrMul '-' (Int.tdiv (b.width - 4) 2) ++ ofStr "|") (b.width - 2)
    ++ b.get_vline)

/-- The body steps for one wrapped line of a `(string, action)` item: the
dim line is printed, then the action at item index `idx` is invoked; if it
raises, the remaining steps are skipped and the error escapes, otherwise
the cursor-up escape, the success label and the separator are printed. -/
def pairLineOut (b : Block α ε ρ) (idx : Nat) (act : Except ε Unit) (line : Str) :
    List Event × Option (RenderErr ε) :=
  match act with
  | .error e => ([dimLineEvent b line, .invokeInline idx], some (.act e))
  | .ok _ =>
    ([dimLineEvent b line, .invokeInline idx, .out cursorUp, successLineEvent b, sepLineEvent b],
      Option.none)

/-- Sequence abortable event-producing steps: events accumulate and the
first error stops the remaining steps. -/
def seqOuts : List (List Event × Option er) → List Event × Option er
  | [] => ([], Option.none)
  | (evs, some e) :: _ => (evs, some e)
  | (evs, Option.none) :: rest =>
    let r := seqOuts rest
    (evs ++ r.1, r.2)

/-- The body steps for the item at index `idx`: the item's string is
wrapped with `textwrap.fill(s, width)` (raising on a non-positive width),
and each wrapped line is printed — for a pair item the embedded action
runs once for every wrapped physical line, inside the line loop. -/
def itemOut (b : Block α ε ρ) (idx : Nat) : Item ε → List Event × Option (RenderErr ε)
  | .plain s =>
    match fillLines s b.width with
    | .error _ => ([], some .invalidWidth)
    | .ok lines => (lines.map (plainLineEvent b), Option.none)
  | .withAct s act =>
    match fillLines s b.width with
    | .error _ => ([], some .invalidWidth)
    | .ok lines => seqOuts (lines.map (pairLineOut b idx act))

/-- The inner `body()` closure of `Block.__call__`: the items are rendered
in order, stopping at the first escaping error. -/
def bodyOut (b : Block α ε ρ) : List Event × Option (RenderErr ε) :=
  seqOuts (b.text.enum.map (fun p => itemOut b p.1 p.2))

/-- `Block.__call__(*args, **kwargs)` (the call arguments are modelled by
the single value `a`, forwarded to `func`): the draw sequence of the
configured variant runs, `func` is invoked at its place in the sequence,
and the result of `func` is returned; any error escapes with the events
printed so far kept. -/
def Block.callOut (b : Block α ε ρ) (a : α) : ROut ε ρ :=
  match b.block_type with
  | .HEAD =>
    let hl : Event := .out (b.styles ++ Block.get_hline b.width (ofStr "+"))
    let bo := bodyOut b
    match bo.2 with
    | some e => ⟨[hl] ++ bo.1, .error e⟩
    | Option.none =>
      match b.func a with
      | .ok v => ⟨[hl] ++ bo.1 ++ [hl, .invokeFunc], .ok v⟩
      | .error e => ⟨[hl] ++ bo.1 ++ [hl, .invokeFunc], .error (.act e)⟩
  | .TAIL =>
    let hl : Event := .out (b.styles ++ Block.get_hline b.width (ofStr "+"))
    let up : Event := .out (cursorUp ++ cursorUp)
    let bo := bodyOut b
    match bo.2 with
    | some e => ⟨[up, hl] ++ bo.1, .error e⟩
    | Option.none =>
      match b.func a with
      | .ok v => ⟨[up, hl] ++ bo.1 ++ [hl, .invokeFunc], .ok v⟩
      | .error e => ⟨[up, hl] ++ bo.1 ++ [hl, .invokeFunc], .error (.act e)⟩
  | .BODY =>
    let hlv : Event := .out (b.styles ++ Block.get_hline b.width b.get_vline)
    let bo := bodyOut b
    match bo.2 with
    | some e => ⟨bo.1, .error e⟩
    | Option.none =>
      match b.func a with
      | .error e => ⟨bo.1 ++ [hlv, .invokeFunc], .error (.act e)⟩
      | .ok v =>
        ⟨bo.1 ++ [hlv, .invokeFunc, .out (cursorUp ++ cursorUp), successLineEvent b, hlv], .ok v⟩

/-- `Block.__call__` with the object state threaded explicitly: the method
body contains no assignment to `self`, so the state passed through every
statement is the block itself. -/
def Block.callSt (b : Block α ε ρ) (a : α) : ROut ε ρ × Block α ε ρ :=
  (b.callOut a, b)

/-- `block_decorator(text, block_type, styles)` applied to `func`: the
wrapper builds a fresh `Block` from the decorator's text (plain strings)
with no explicit width — so the width defaults to the terminal width,
supplied here as `terminalWidth` — and invokes it on the call arguments. -/
def block_decorator {α ε ρ : Type} (text : List Str) (block_type : BlockType) (styles : Option Str)
    (func : α → Except ε ρ) (terminalWidth : Int) (a : α) : ROut ε ρ :=
  (Block.init (text.map Item.plain) Option.none block_type styles func terminalWidth).callOut a

end PrintX

/-! ### Predicates used in the statements -/

namespace PrintX

/-- Whether `l` starts with `u`. -/
def beginsWith : Str → Str → Bool
  | [], _ => true
  | _ :: _, [] => false
  | a :: as, b :: bs => a == b && beginsWith as bs

/-- Whether `u` occurs contiguously (unbroken) inside `l`. -/
def containsSeq (u : Str) : Str → Bool
  | [] => u.isEmpty
  | c :: cs => beginsWith u (c :: cs) || containsSeq u cs

/-- Whether an event prints a string in which `u` occurs contiguously. -/
def eventContains (u : Str) : Event → Bool
  | .out s => containsSeq u s
  | _ => false

/-- Whether an item's embedded action (if any) succeeds. -/
def Item.actOk : Item ε → Bool
  | .plain _ => true
  | .withAct _ (.ok _) => true
  | .withAct _ (.error _) => false

/-- Whether every embedded action of a text sequence succeeds. -/
def actsOkB (text : List (Item ε)) : Bool := text.all Item.actOk

/-- The whitespace-delimited words of a text, after whitespace munging:
the maximal runs of non-space characters. -/
def wordsOf (s : Str) : List Str :=
  (splitRuns (mungeWhitespace s)).filter (fun r => !(isWsChunk r))

/-- Whether a string contains a hyphen. -/
def hasHyphen (s : Str) : Bool := s.any (· == '-')

/-! ### Basic lemmas about occurrence -/

theorem beginsWith_iff {u l : Str} : beginsWith u l = true ↔ ∃ t, l = u ++ t := by
  induction u generalizing l with
  | nil => simp [beginsWith]
  | cons a as ih =>
    cases l with
    | nil => simp [beginsWith]
    | cons b bs =>
      simp only [beginsWith, Bool.and_eq_true, beq_iff_eq, ih, List.cons_append,
        List.cons.injEq]
      constructor
      · rintro ⟨h1, t, h2⟩; exact ⟨t, h1.symm, h2⟩
      · rintro ⟨t, h1, h2⟩; exact ⟨h1.symm, t, h2⟩

theorem containsSeq_iff {u l : Str} : containsSeq u l = true ↔ ∃ p q, l = p ++ u ++ q := by
  induction l with
  | nil =>
    simp only [containsSeq, List.isEmpty_iff]
    constructor
    · rintro rfl; exact ⟨[], [], rfl⟩
    · rintro ⟨p, q, h⟩
      rcases List.append_eq_nil.mp (List.append_eq_nil.mp h.symm).1 with ⟨-, h2⟩
      exact h2
  | cons c cs ih =>
    simp only [containsSeq, Bool.or_eq_true, beginsWith_iff, ih]
    constructor
    · rintro (⟨t, h⟩ | ⟨p, q, h⟩)
      · exact ⟨[], t, by simp [h]⟩
      · exact ⟨c :: p, q, by simp [h]⟩
    · rintro ⟨p, q, h⟩
      cases p with
      | nil => exact Or.inl ⟨q, by simpa using h⟩
      | cons x xs =>
        right
        simp only [List.cons_append, List.cons.injEq] at h
        exact ⟨xs, q, h.2⟩

theorem containsSeq_append_left {u l : Str} (p : Str) (h : containsSeq u l = true) :
    containsSeq u (p ++ l) = true := by
  rcases containsSeq_iff.mp h with ⟨x, y, rfl⟩
  exact containsSeq_iff.mpr ⟨p ++ x, y, by simp⟩

theorem containsSeq_append_right {u l : Str} (q : Str) (h : containsSeq u l = true) :
    containsSeq u (l ++ q) = true := by
  rcases containsSeq_iff.mp h with ⟨x, y, rfl⟩
  exact containsSeq_iff.mpr ⟨x, y ++ q, by simp⟩

theorem containsSeq_self (u : Str) : containsSeq u u = true :=
  containsSeq_iff.mpr ⟨[], [], by simp⟩

theorem containsSeq_of_mem {u : Str} {L : List Str} (h : u ∈ L) :
    containsSeq u L.flatten = true := by
  rcases List.append_of_mem h with ⟨p, q, rfl⟩
  rcases List.append_of_mem (List.mem_append_right p (List.mem_cons_self u q)) with _
  have : (p ++ u :: q).flatten = p.flatten ++ (u ++ q.flatten) := by
    simp [List.flatten_append]
  rw [this]
  exact containsSeq_append_left _ (containsSeq_append_right _ (containsSeq_self u))

theorem pyCenter_contains {u l : Str} (n : Int) (h : containsSeq u l = true) :
    containsSeq u (pyCenter l n) = true := by
  unfold pyCenter
  split
  · exact h
  · exact containsSeq_append_right _ (containsSeq_append_left _ h)

/-! ### Basic lemmas about the renderer pipeline -/

theorem fillLines_pos (s : Str) {w : Int} (hw : 0 < w) :
    fillLines s w =
      .ok (wrapLoop w.toNat (chunksMeasure (splitChunks (mungeWhitespace s)) + 1)
        (splitChunks (mungeWhitespace s)) []) := by
  simp [fillLines, wrapChunks, not_le.mpr hw]

theorem seqOuts_snd_none {er : Type} {L : List (List Event × Option er)}
    (h : ∀ x ∈ L, x.2 = Option.none) : (seqOuts L).2 = Option.none := by
  induction L with
  | nil => rfl
  | cons x rest ih =>
    obtain ⟨evs, o⟩ := x
    have : o = Option.none := h _ (List.mem_cons_self _ _)
    subst this
    simp only [seqOuts]
    exact ih (fun y hy => h y (List.mem_cons_of_mem _ hy))

theorem seqOuts_events_flatten {er : Type} {L : List (List Event × Option er)}
    (h : ∀ x ∈ L, x.2 = Option.none) : (seqOuts L).1 = (L.map Prod.fst).flatten := by
  induction L with
  | nil => rfl
  | cons x rest ih =>
    obtain ⟨evs, o⟩ := x
    have : o = Option.none := h _ (List.mem_cons_self _ _)
    subst this
    simp only [seqOuts, List.map_cons, List.flatten_cons]
    rw [ih (fun y hy => h y (List.mem_cons_of_mem _ hy))]

theorem snd_mem_of_mem_enum {A : Type} {l : List A} {p : Nat × A} (h : p ∈ l.enum) :
    p.2 ∈ l := by
  exact List.getElem?_mem (List.mem_enum_iff_getElem?.mp h)

theorem itemOut_snd_none {α ε ρ : Type} (b : Block α ε ρ) (idx : Nat) (it : Item ε)
    (hw : 0 < b.width) (ha : it.actOk = true) : (itemOut b idx it).2 = Option.none := by
  cases it with
  | plain s => simp [itemOut, fillLines_pos s hw]
  | withAct s act =>
    cases act with
    | error e => simp [Item.actOk] at ha
    | ok u =>
      simp only [itemOut, fillLines_pos s hw]
      exact seqOuts_snd_none (by
        intro x hx
        rcases List.mem_map.mp hx with ⟨l, -, rfl⟩
        rfl)

theorem bodyOut_snd_none {α ε ρ : Type} (b : Block α ε ρ)
    (hw : 0 < b.width ∨ b.text = []) (ha : actsOkB b.text = true) :
    (bodyOut b).2 = Option.none := by
  rcases hw with hw | hw
  · refine seqOuts_snd_none ?_
    intro x hx
    rcases List.mem_map.mp hx with ⟨p, hp, rfl⟩
    refine itemOut_snd_none b p.1 p.2 hw ?_
    exact List.all_eq_true.mp ha _ (snd_mem_of_mem_enum hp)
  · simp [bodyOut, hw, seqOuts]

theorem callOut_result_eq {α ε ρ : Type} (b : Block α ε ρ) (a : α)
    (hw : 0 < b.width ∨ b.text = []) (ha : actsOkB b.text = true) :
    (b.callOut a).result = (b.func a).mapError RenderErr.act := by
  have hb := bodyOut_snd_none b hw ha
  cases hbt : b.block_type <;>
    cases hfa : b.func a <;>
      simp [Block.callOut, hbt, hb, hfa, Except.mapError]

/-! ### Claims -/

/-- C1: for every `Block` variant and every configured top-level action
`func`, invoking the block returns exactly the value `func` returns when it
succeeds, and when `func` raises, that error propagates unchanged to the
caller (no catching or transformation) — provided the drawing itself
completes, i.e. the width is positive (otherwise `textwrap` raises first)
and the embedded per-item actions succeed. -/
theorem claim1_result_forwarded {α ε ρ : Type} (b : Block α ε ρ) (a : α)
    (hw : 0 < b.width ∨ b.text = []) (ha : actsOkB b.text = true) :
    (b.callOut a).result = (b.func a).mapError RenderErr.act :=
  callOut_result_eq b a hw ha

/-- C1 witness at a concrete block. -/
theorem claim1_result_forwarded_witness :
    ((Block.mk (fun n : Nat => Except.error (n + 1) : Nat → Except Nat Nat)
        [Item.plain (ofStr "hi")] 10 BlockType.BODY []).callOut 41).result =
      Except.error (RenderErr.act 42) := by
  have := claim1_result_forwarded
    (Block.mk (fun n : Nat => Except.error (n + 1) : Nat → Except Nat Nat)
      [Item.plain (ofStr "hi")] 10 BlockType.BODY []) 41 (Or.inl (by decide)) (by decide)
  simpa using this

/-- C8: invoking a block leaves every field of the block unchanged — with
the object state threaded explicitly, the state coming out of `__call__`
is the state that went in, so a block can be re-invoked and every
invocation starts from the same configuration and produces the same run. -/
theorem claim8_invocation_preserves_block {α ε ρ : Type} (b : Block α ε ρ) (a : α) :
    (b.callSt a).2 = b ∧ ((b.callSt a).2.callSt a) = b.callSt a :=
  ⟨rfl, rfl⟩

end PrintX

namespace PrintX

theorem fillLines_nonpos (s : Str) {w : Int} (hw : w ≤ 0) :
    fillLines s w = .error () := by
  simp [fillLines, wrapChunks, hw]

theorem callOut_invalidWidth {α ε ρ : Type} (b : Block α ε ρ) (a : α) (s : Str)
    (rest : List (Item ε)) (ht : b.text = Item.plain s :: rest) (hw : b.width ≤ 0) :
    (b.callOut a).result = .error RenderErr.invalidWidth := by
  have hb2 : (bodyOut b).2 = some RenderErr.invalidWidth := by
    rw [bodyOut, ht, List.enum_cons]
    simp [itemOut, fillLines_nonpos s hw, seqOuts]
  cases hbt : b.block_type <;> simp [Block.callOut, hbt, hb2]

/-- C2 counterexample: a `Block` constructed with the explicit width `2`
(below the claimed minimum `4`) stores width `2` unchanged — no clamping to
the minimum happens, so the invariant `width ≥ 4` fails after
construction. -/
theorem claim2_no_clamping_counterexample :
    (Block.init ([] : List (Item Unit)) (some 2) BlockType.BODY Option.none
        (noneF : Unit → Except Unit Unit) 80).width = 2 ∧
    ¬ (4 ≤ (Block.init ([] : List (Item Unit)) (some 2) BlockType.BODY Option.none
        (noneF : Unit → Except Unit Unit) 80).width) := by
  exact ⟨rfl, by decide⟩

/-- C2 amended: the constructor stores the explicit width exactly as given
(no clamping), so widths below `4` survive construction; rendering with any
positive width still completes without a formatting fault (Python string
padding and repetition clamp negative counts at zero), while a width `≤ 0`
makes `textwrap.fill` raise `ValueError` as soon as a line item is
rendered. -/
theorem claim2_width_stored_unclamped {α ε ρ : Type} (text : List (Item ε)) (w : Int)
    (bt : BlockType) (st : Option Str) (f : α → Except ε ρ) (tw : Int) :
    (Block.init text (some w) bt st f tw).width = w ∧
    (∀ (a : α) (v : ρ), 0 < w → actsOkB text = true → f a = .ok v →
      ((Block.init text (some w) bt st f tw).callOut a).result = .ok v) ∧
    (∀ (a : α) (s : Str) (rest : List (Item ε)), text = Item.plain s :: rest → w ≤ 0 →
      ((Block.init text (some w) bt st f tw).callOut a).result =
        .error RenderErr.invalidWidth) := by
  refine ⟨rfl, ?_, ?_⟩
  · intro a v hw ha hf
    have h := callOut_result_eq (Block.init text (some w) bt st f tw) a (Or.inl hw) ha
    rw [h]
    simp [Block.init, hf, Except.mapError]
  · intro a s rest ht hw
    exact callOut_invalidWidth _ a s rest ht hw

/-- C2 amended witness: width `2` is stored as-is and the block still
renders successfully. -/
theorem claim2_width_stored_unclamped_witness :
    ((Block.init [Item.plain (ofStr "hi")] (some 2) BlockType.HEAD Option.none
        (noneF : Unit → Except Unit Unit) 80).callOut ()).result = .ok Unit.unit :=
  (claim2_width_stored_unclamped [Item.plain (ofStr "hi")] 2 BlockType.HEAD Option.none
    (noneF : Unit → Except Unit Unit) 80).2.1 () Unit.unit (by decide) (by decide) rfl

/-- C7: at the minimum width `4`, the horizontal border line with the
default `'+'` edge symbol is exactly the 4-character string `"+--+"`, and
rendering a width-4 block does not raise (it returns the action's value)
whenever the configured actions succeed. -/
theorem claim7_minimum_width :
    Block.get_hline 4 (ofStr "+") = ofStr "+--+" ∧
    (Block.get_hline 4 (ofStr "+")).length = 4 ∧
    (∀ {α ε ρ : Type} (b : Block α ε ρ) (a : α) (v : ρ), b.width = 4 →
      actsOkB b.text = true → b.func a = .ok v → (b.callOut a).result = .ok v) := by
  refine ⟨by decide, by decide, ?_⟩
  intro α ε ρ b a v hw ha hf
  have h := callOut_result_eq b a (Or.inl (by rw [hw]; decide)) ha
  rw [h, hf]
  rfl

/-- C7 witness: a concrete width-4 block renders to a successful result. -/
theorem claim7_minimum_width_witness :
    ((Block.mk (noneF : Nat → Except Unit Unit) [Item.plain (ofStr "ok")] 4
        BlockType.BODY []).callOut 7).result = .ok Unit.unit :=
  claim7_minimum_width.2.2
    (Block.mk (noneF : Nat → Except Unit Unit) [Item.plain (ofStr "ok")] 4 BlockType.BODY [])
    7 Unit.unit rfl (by decide) rfl

end PrintX

namespace PrintX

/-! ### The complete draw sequence -/

/-- The events a single item contributes to the body when nothing aborts. -/
def itemFullEvents (b : Block α ε ρ) (idx : Nat) : Item ε → List Event
  | .plain s =>
    match fillLines s b.width with
    | .error _ => []
    | .ok lines => lines.map (plainLineEvent b)
  | .withAct s act =>
    match fillLines s b.width with
    | .error _ => []
    | .ok lines => (lines.map (fun l => (pairLineOut b idx act l).1)).flatten

/-- The events the whole body contributes when nothing aborts. -/
def bodyFullEvents (b : Block α ε ρ) : List Event :=
  (b.text.enum.map (fun p => itemFullEvents b p.1 p.2)).flatten

/-- The complete draw sequence of a block, per variant, when no error
interrupts it: borders, body lines and the `func` invocation in the order
of `Block.__call__`. -/
def fullDrawEvents (b : Block α ε ρ) : List Event :=
  match b.block_type with
  | .HEAD =>
    [Event.out (b.styles ++ Block.get_hline b.width (ofStr "+"))] ++ bodyFullEvents b
      ++ [Event.out (b.styles ++ Block.get_hline b.width (ofStr "+")), Event.invokeFunc]
  | .TAIL =>
    [Event.out (cursorUp ++ cursorUp),
      Event.out (b.styles ++ Block.get_hline b.width (ofStr "+"))] ++ bodyFullEvents b
      ++ [Event.out (b.styles ++ Block.get_hline b.width (ofStr "+")), Event.invokeFunc]
  | .BODY =>
    bodyFullEvents b
      ++ [Event.out (b.styles ++ Block.get_hline b.width b.get_vline), Event.invokeFunc,
          Event.out (cursorUp ++ cursorUp), successLineEvent b,
          Event.out (b.styles ++ Block.get_hline b.width b.get_vline)]

theorem itemOut_fst_eq {α ε ρ : Type} (b : Block α ε ρ) (i : Nat) (it : Item ε)
    (ha : it.actOk = true) : (itemOut b i it).1 = itemFullEvents b i it := by
  cases it with
  | plain s => cases hfl : fillLines s b.width <;> simp [itemOut, itemFullEvents, hfl]
  | withAct s act =>
    cases act with
    | error e => simp [Item.actOk] at ha
    | ok u =>
      cases hfl : fillLines s b.width with
      | error e => simp [itemOut, itemFullEvents, hfl]
      | ok lines =>
        simp only [itemOut, itemFullEvents, hfl]
        rw [seqOuts_events_flatten (by
          intro x hx
          rcases List.mem_map.mp hx with ⟨l, -, rfl⟩
          rfl)]
        rw [List.map_map]
        rfl

theorem bodyOut_fst_eq {α ε ρ : Type} (b : Block α ε ρ)
    (hw : 0 < b.width ∨ b.text = []) (ha : actsOkB b.text = true) :
    (bodyOut b).1 = bodyFullEvents b := by
  rcases hw with hw | hw
  · rw [bodyOut, seqOuts_events_flatten (by
      intro x hx
      rcases List.mem_map.mp hx with ⟨p, hp, rfl⟩
      exact itemOut_snd_none b p.1 p.2 hw
        (List.all_eq_true.mp ha _ (snd_mem_of_mem_enum hp)))]
    rw [bodyFullEvents, List.map_map]
    congr 1
    refine List.map_congr_left ?_
    intro p hp
    exact itemOut_fst_eq b p.1 p.2 (List.all_eq_true.mp ha _ (snd_mem_of_mem_enum hp))
  · simp [bodyOut, bodyFullEvents, hw, seqOuts]

theorem callOut_full {α ε ρ : Type} (b : Block α ε ρ) (a : α) (v : ρ)
    (hw : 0 < b.width ∨ b.text = []) (ha : actsOkB b.text = true)
    (hf : b.func a = .ok v) : b.callOut a = ⟨fullDrawEvents b, .ok v⟩ := by
  have h2 := bodyOut_snd_none b hw ha
  have h1 := bodyOut_fst_eq b hw ha
  cases hbt : b.block_type <;>
    simp [Block.callOut, fullDrawEvents, hbt, h1, h2, hf]

/-- C10: block invocation forwards its call arguments verbatim to the
configured top-level `func` in every variant; the default `func` (the
module-level `none`) accepts any argument and returns `None`, so a block
with no action configured returns `None` after completing the full draw
sequence of its variant. -/
theorem claim10_default_action_none {α ε ρ : Type} (text : List (Item ε)) (w : Int)
    (bt : BlockType) (st : Str) (a : α)
    (hw : 0 < w ∨ text = []) (ha : actsOkB text = true) :
    (∀ g : α → Except ε ρ,
      ((Block.mk g text w bt st).callOut a).result = (g a).mapError RenderErr.act) ∧
    (noneF a = (Except.ok Unit.unit : Except ε Unit)) ∧
    ((Block.mk (noneF : α → Except ε Unit) text w bt st).callOut a =
      ⟨fullDrawEvents (Block.mk (noneF : α → Except ε Unit) text w bt st), .ok Unit.unit⟩) :=
  ⟨fun g => callOut_result_eq (Block.mk g text w bt st) a hw ha,
   rfl,
   callOut_full _ a Unit.unit hw ha rfl⟩

/-- C10 witness at a concrete block. -/
theorem claim10_default_action_none_witness :
    (Block.mk (noneF : Nat → Except Unit Unit) [Item.plain (ofStr "hi")] 9
        BlockType.TAIL []).callOut 3 =
      ⟨fullDrawEvents (Block.mk (noneF : Nat → Except Unit Unit) [Item.plain (ofStr "hi")] 9
        BlockType.TAIL []), .ok Unit.unit⟩ :=
  (claim10_default_action_none (ρ := Unit) [Item.plain (ofStr "hi")] 9 BlockType.TAIL [] 3
    (Or.inl (by decide)) (by decide)).2.2

end PrintX

namespace PrintX

theorem count_pairLine {α ε ρ : Type} (b : Block α ε ρ) (i : Nat) (act : Except ε Unit)
    (l : Str) : (pairLineOut b i act l).1.count (Event.invokeInline i) = 1 := by
  cases act <;> simp [pairLineOut, List.count_cons, dimLineEvent, successLineEvent, sepLineEvent]

/-- C3 counterexample: for a `(string, action)` item whose string wraps
into two physical lines (width 5, text `"aaa bbb"`), rendering invokes the
item's embedded action twice — once per wrapped line — not exactly once per
item. -/
theorem claim3_once_per_item_counterexample :
    ((Block.mk (noneF : Unit → Except Unit Unit)
        [Item.withAct (ofStr "aaa bbb") (Except.ok Unit.unit)] 5 BlockType.BODY
        []).callOut ()).events.count (Event.invokeInline 0) = 2 ∧ (2 : Nat) ≠ 1 :=
  ⟨by decide, by decide⟩

/-- C3 amended: the embedded action of a `(string, action)` item is
invoked once per wrapped physical line of the string portion — the print
of the dim line, the action invocation, the cursor-up, the success label
and the separator all repeat inside the per-line loop — so the number of
invocations equals the number of wrapped lines. -/
theorem claim3_invoked_once_per_wrapped_line {α ε ρ : Type} (b : Block α ε ρ) (a : α)
    (s : Str) (ht : b.text = [Item.withAct s (Except.ok Unit.unit)]) (hw : 0 < b.width)
    (lines : List Str) (hl : fillLines s b.width = .ok lines) :
    (b.callOut a).events.count (Event.invokeInline 0) = lines.length := by
  have ha : actsOkB b.text = true := by simp [actsOkB, ht, Item.actOk]
  have hb2 : (bodyOut b).2 = Option.none := bodyOut_snd_none b (Or.inl hw) ha
  have hseq1 : ∀ (x : List Event × Option (RenderErr ε)), (seqOuts [x]).1 = x.1 := by
    rintro ⟨evs, o⟩
    cases o <;> simp [seqOuts]
  have hb1 : (bodyOut b).1 =
      (lines.map (fun l => (pairLineOut b 0 (Except.ok Unit.unit) l).1)).flatten := by
    rw [bodyOut, ht, List.enum_cons]
    simp only [List.enumFrom, List.map_cons, List.map_nil]
    rw [hseq1]
    simp only [itemOut, hl]
    rw [seqOuts_events_flatten (by
      intro x hx
      rcases List.mem_map.mp hx with ⟨l, -, rfl⟩
      rfl)]
    rw [List.map_map]
    rfl
  have hcount : (bodyOut b).1.count (Event.invokeInline 0) = lines.length := by
    have hLcount : ∀ L : List Str,
        ((L.map (fun l => (pairLineOut b 0 (Except.ok Unit.unit) l).1)).flatten).count
          (Event.invokeInline 0) = L.length := by
      intro L
      induction L with
      | nil => simp
      | cons x xs ih =>
        simp only [List.map_cons, List.flatten_cons, List.count_append, ih,
          count_pairLine, List.length_cons]
        omega
    rw [hb1, hLcount]
  cases hbt : b.block_type <;> cases hfa : b.func a <;>
    simp [Block.callOut, hbt, hb2, hfa, List.count_cons, hcount, successLineEvent]

/-- C3 amended witness: at width 4 the string `"aa bb"` wraps into two
lines and the action runs twice. -/
theorem claim3_invoked_once_per_wrapped_line_witness :
    ((Block.mk (noneF : Unit → Except Unit Unit)
        [Item.withAct (ofStr "aa bb") (Except.ok Unit.unit)] 4 BlockType.HEAD
        []).callOut ()).events.count (Event.invokeInline 0) = 2 :=
  claim3_invoked_once_per_wrapped_line
    (Block.mk (noneF : Unit → Except Unit Unit)
      [Item.withAct (ofStr "aa bb") (Except.ok Unit.unit)] 4 BlockType.HEAD []) ()
    (ofStr "aa bb") rfl (by decide) [ofStr "aa", ofStr "bb"] rfl

end PrintX

namespace PrintX

/-! ### Wrapping a single short word -/

theorem runsAux_same (k : Bool) : ∀ (cs : Str) (acc : Str), (∀ c ∈ cs, (c == ' ') = k) →
    runsAux (some (k, acc)) cs = [acc.reverse ++ cs] := by
  intro cs
  induction cs with
  | nil => intro acc _; simp [runsAux]
  | cons c cs ih =>
    intro acc h
    have hc : (c == ' ') = k := h c (List.mem_cons_self _ _)
    simp only [runsAux, hc, beq_self_eq_true, if_pos]
    rw [ih (c :: acc) (fun c' hc' => h c' (List.mem_cons_of_mem _ hc'))]
    simp

theorem splitRuns_single {u : Str} (hne : u ≠ []) (hns : ∀ c ∈ u, (c == ' ') = false) :
    splitRuns u = [u] := by
  cases u with
  | nil => exact absurd rfl hne
  | cons c cs =>
    have hc : (c == ' ') = false := hns c (List.mem_cons_self _ _)
    simp only [splitRuns, runsAux, hc]
    rw [runsAux_same false cs [c] (fun c' hc' => hns c' (List.mem_cons_of_mem _ hc'))]
    simp

theorem hyphenSplitAt_false {u : Str} (hh : hasHyphen u = false) (e : Nat) :
    hyphenSplitAt u e = false := by
  have hget : ∀ i, ¬ (u.get? i == some '-') = true := by
    intro i hi
    have hsome : u.get? i = some '-' := by simpa using hi
    have hm : '-' ∈ u := List.get?_mem hsome
    unfold hasHyphen at hh
    have hcontra := (List.any_eq_false.mp hh) '-' hm
    simp at hcontra
  unfold hyphenSplitAt
  cases hg : (u.get? (e - 1) == some '-') with
  | false => simp
  | true => exact absurd hg (by intro h; exact hget _ h)

theorem chunkWord_single {u : Str} (hne : u ≠ []) (hh : hasHyphen u = false) :
    chunkWord u = [u] := by
  have hnb : nextBreak u 0 = u.length := by
    unfold nextBreak
    rw [List.find?_eq_none.mpr (fun e _ => by simp [hyphenSplitAt_false hh e])]
  have hpos : 0 < u.length := List.length_pos.mpr hne
  obtain ⟨n, hn⟩ := Nat.exists_eq_succ_of_ne_zero (Nat.pos_iff_ne_zero.mp hpos)
  have hgo0 : ∀ m, chunkWordGo u m u.length = [] := by
    intro m
    cases m with
    | zero => rfl
    | succ m => simp [chunkWordGo]
  have hunfold : ∀ fuel s, chunkWordGo u (fuel + 1) s =
      if s < u.length then
        (u.drop s).take (nextBreak u s - s) :: chunkWordGo u fuel (nextBreak u s)
      else [] := fun fuel s => rfl
  rw [chunkWord, hn, hunfold]
  rw [if_pos hpos, hnb, hgo0 n]
  simp

theorem isWsChunk_false_of {u : Str} (hne : u ≠ []) (hns : ∀ c ∈ u, (c == ' ') = false) :
    isWsChunk u = false := by
  cases u with
  | nil => exact absurd rfl hne
  | cons c cs =>
    have hc : (c == ' ') = false := hns c (List.mem_cons_self _ _)
    simp [isWsChunk, hc]

theorem fillLines_single_word {u : Str} {w : Int} (hne : u ≠ [])
    (hns : ∀ c ∈ u, isPyWs c = false) (hh : hasHyphen u = false) (hw : 0 < w)
    (hlen : (u.length : Int) ≤ w) : fillLines u w = .ok [u] := by
  have hns' : ∀ c ∈ u, (c == ' ') = false := by
    intro c hc
    cases hcc : (c == ' ') with
    | false => rfl
    | true =>
      have : c = ' ' := by simpa using hcc
      subst this
      have := hns ' ' hc
      simp [isPyWs] at this
  have hmunge : mungeWhitespace u = u := by
    unfold mungeWhitespace
    rw [List.map_congr_left (fun c hc => by rw [hns c hc])]
    exact List.map_id u
  have hchunks : splitChunks (mungeWhitespace u) = [u] := by
    rw [hmunge]
    unfold splitChunks
    rw [splitRuns_single hne hns']
    simp [isWsChunk_false_of hne hns', chunkWord_single hne hh]
  have hlen' : u.length ≤ w.toNat := by omega
  rw [fillLines, hchunks, wrapChunks, if_neg (not_le.mpr hw)]
  have hmeas : chunksMeasure [u] = u.length + 1 := by simp [chunksMeasure]
  rw [hmeas]
  have htake : takeGreedy w.toNat 0 [u] = ([u], u.length, []) := by
    have hc : 0 + u.length ≤ w.toNat := by omega
    simp [takeGreedy, hc, hlen']
  have hstep : wrapStep w.toNat false [u] = (some u, []) := by
    simp [wrapStep, dropLeadingWs, htake, breakLong, dropTrailingWs,
      isWsChunk_false_of hne hns']
  show Except.ok (wrapLoop w.toNat (u.length + 1 + 1) [u] []) = Except.ok [u]
  rw [show (u.length + 1 + 1) = (u.length + 1) + 1 from rfl, wrapLoop]
  simp only [List.isEmpty_cons, List.isEmpty_nil, Bool.not_true, hstep]
  cases hfuel : u.length + 1 with
  | zero => omega
  | succ m =>
    rw [wrapLoop]
    simp

end PrintX

namespace PrintX

theorem actsOkB_plain {ε : Type} (text : List Str) :
    actsOkB (text.map Item.plain : List (Item ε)) = true := by
  simp [actsOkB, List.all_map]
  intro s _
  rfl

/-- C6: the callable produced by `block_decorator` forwards the call
arguments to the wrapped function unchanged and returns its result
unchanged (or propagates its error); in particular decorating
`f (a, b) = a + b` with header text `["step"]` and calling the decorated
function on `(2, 3)` returns `5` and prints a body line containing the
header text `"step"` (for any terminal width of at least 4 columns). -/
theorem claim6_decorator_forwards (termW : Int) (h4 : 4 ≤ termW) :
    (∀ {α ε ρ : Type} (text : List Str) (bt : BlockType) (st : Option Str)
      (f : α → Except ε ρ) (a : α),
      (block_decorator text bt st f termW a).result = (f a).mapError RenderErr.act) ∧
    ((block_decorator [ofStr "step"] BlockType.BODY Option.none
        (fun p : Int × Int => (Except.ok (p.1 + p.2) : Except Unit Int)) termW
        (2, 3)).result = .ok 5) ∧
    ((block_decorator [ofStr "step"] BlockType.BODY Option.none
        (fun p : Int × Int => (Except.ok (p.1 + p.2) : Except Unit Int)) termW
        (2, 3)).events.any (eventContains (ofStr "step")) = true) := by
  have hw : (0 : Int) < termW := by omega
  have hfwd : ∀ {α ε ρ : Type} (text : List Str) (bt : BlockType) (st : Option Str)
      (f : α → Except ε ρ) (a : α),
      (block_decorator text bt st f termW a).result = (f a).mapError RenderErr.act := by
    intro α ε ρ text bt st f a
    exact callOut_result_eq _ a (Or.inl hw) (actsOkB_plain text)
  refine ⟨hfwd, ?_, ?_⟩
  · rw [hfwd]
    rfl
  · have hfl : fillLines (ofStr "step") termW = .ok [ofStr "step"] :=
      fillLines_single_word (by decide) (by decide) (by decide) hw
        (by
          show ((ofStr "step").length : Int) ≤ termW
          have : (ofStr "step").length = 4 := by decide
          omega)
    have hcall := callOut_full
      (Block.init ([ofStr "step"].map Item.plain) Option.none BlockType.BODY Option.none
        (fun p : Int × Int => (Except.ok (p.1 + p.2) : Except Unit Int)) termW)
      (2, 3) 5 (Or.inl hw) (actsOkB_plain [ofStr "step"]) rfl
    apply List.any_eq_true.mpr
    refine ⟨plainLineEvent
      (Block.init ([ofStr "step"].map Item.plain) Option.none BlockType.BODY Option.none
        (fun p : Int × Int => (Except.ok (p.1 + p.2) : Except Unit Int)) termW)
      (ofStr "step"), ?_, ?_⟩
    · show plainLineEvent
        (Block.init ([ofStr "step"].map Item.plain) Option.none BlockType.BODY Option.none
          (fun p : Int × Int => (Except.ok (p.1 + p.2) : Except Unit Int)) termW)
        (ofStr "step") ∈
        ((Block.init ([ofStr "step"].map Item.plain) Option.none BlockType.BODY Option.none
          (fun p : Int × Int => (Except.ok (p.1 + p.2) : Except Unit Int)) termW).callOut
          (2, 3)).events
      rw [hcall]
      simp [Block.init, fullDrawEvents, bodyFullEvents, itemFullEvents, hfl, plainLineEvent]
    · simp only [eventContains, plainLineEvent]
      exact containsSeq_append_right _
        (containsSeq_append_left _ (pyCenter_contains _ (containsSeq_self _)))

/-- C6 witness at terminal width 6. -/
theorem claim6_decorator_forwards_witness :
    ((block_decorator [ofStr "step"] BlockType.BODY Option.none
        (fun p : Int × Int => (Except.ok (p.1 + p.2) : Except Unit Int)) 6
        (2, 3)).result = .ok 5) ∧
    ((block_decorator [ofStr "step"] BlockType.BODY Option.none
        (fun p : Int × Int => (Except.ok (p.1 + p.2) : Except Unit Int)) 6
        (2, 3)).events.any (eventContains (ofStr "step")) = true) :=
  ⟨(claim6_decorator_forwards 6 (by decide)).2.1,
   (claim6_decorator_forwards 6 (by decide)).2.2⟩

end PrintX

namespace PrintX

/-! ### Structure of the greedy line fill and the long-word handler -/

theorem takeGreedy_append (w : Nat) : ∀ (n : Nat) (l : List Str),
    (takeGreedy w n l).1 ++ (takeGreedy w n l).2.2 = l := by
  intro n l
  induction l generalizing n with
  | nil => simp [takeGreedy]
  | cons c cs ih =>
    by_cases h : n + c.length ≤ w
    · simp only [takeGreedy, if_pos h, List.cons_append]
      rw [ih (n + c.length)]
    · simp [takeGreedy, if_neg h]

theorem takeGreedy_len (w : Nat) : ∀ (n : Nat) (l : List Str),
    (takeGreedy w n l).2.1 = n + ((takeGreedy w n l).1.map List.length).sum := by
  intro n l
  induction l generalizing n with
  | nil => simp [takeGreedy]
  | cons c cs ih =>
    by_cases h : n + c.length ≤ w
    · simp only [takeGreedy, if_pos h, List.map_cons, List.sum_cons]
      rw [ih (n + c.length)]
      omega
    · simp [takeGreedy, if_neg h]

theorem takeGreedy_le (w : Nat) : ∀ (n : Nat) (l : List Str), n ≤ w →
    (takeGreedy w n l).2.1 ≤ w := by
  intro n l
  induction l generalizing n with
  | nil => intro h; simpa [takeGreedy] using h
  | cons c cs ih =>
    intro hn
    by_cases h : n + c.length ≤ w
    · simp only [takeGreedy, if_pos h]
      exact ih (n + c.length) h
    · simpa [takeGreedy, if_neg h] using hn

theorem takeGreedy_nil (w : Nat) (n : Nat) (l : List Str)
    (h : (takeGreedy w n l).1 = []) :
    (takeGreedy w n l).2.1 = n ∧ (takeGreedy w n l).2.2 = l := by
  cases l with
  | nil => simp [takeGreedy]
  | cons c cs =>
    by_cases hc : n + c.length ≤ w
    · simp [takeGreedy, if_pos hc] at h
    · simp [takeGreedy, if_neg hc]

theorem rfindHyphen_lt {d : Str} {stop h : Nat} (hr : rfindHyphen d stop = some h) :
    h < min stop d.length := by
  have hmem : h ∈ (List.range (min stop d.length)).filter
      (fun i => d.get? i == some '-') := List.mem_of_getLast?_eq_some hr
  have := List.of_mem_filter hmem
  exact List.mem_range.mp (List.mem_of_mem_filter hmem)

theorem handleLongWord_append (w c : Nat) (d : Str) :
    (handleLongWord w c d).1 ++ (handleLongWord w c d).2 = d := by
  simp [handleLongWord]

theorem handleLongWord_fst_len {w c : Nat} (hw : 1 ≤ w) (d : Str) :
    (handleLongWord w c d).1.length ≤ w - c := by
  unfold handleLongWord
  simp only [if_neg (show ¬ w < 1 by omega), List.length_take]
  split
  · split
    · rename_i h hr
      split
      · obtain ⟨h1, h2⟩ := Nat.lt_min.mp (rfindHyphen_lt hr)
        exact le_trans (Nat.min_le_left _ _) h1
      · exact Nat.min_le_left _ _
    · exact Nat.min_le_left _ _
  · exact Nat.min_le_left _ _

theorem handleLongWord_snd_lt {w : Nat} (hw : 1 ≤ w) {d : Str} (hd : w < d.length) :
    (handleLongWord w 0 d).2.length < d.length := by
  unfold handleLongWord
  simp only [if_neg (show ¬ w < 1 by omega), List.length_drop]
  rw [if_pos (show w - 0 < d.length by omega)]
  have hlen : 1 ≤ d.length := by omega
  split
  · rename_i h hr
    split
    · exact Nat.sub_lt hlen (Nat.succ_pos h)
    · have hpos : 0 < w - 0 := by omega
      exact Nat.sub_lt hlen hpos
  · have hpos : 0 < w - 0 := by omega
    exact Nat.sub_lt hlen hpos

/-! ### Measure lemmas -/

theorem chunksMeasure_append (a b : List Str) :
    chunksMeasure (a ++ b) = chunksMeasure a + chunksMeasure b := by
  simp [chunksMeasure]
  omega

theorem chunksMeasure_cons (c : Str) (l : List Str) :
    chunksMeasure (c :: l) = c.length + 1 + chunksMeasure l := by
  simp [chunksMeasure]
  omega

end PrintX

namespace PrintX

theorem handleLongWord_snd_le (w c : Nat) (d : Str) :
    (handleLongWord w c d).2.length ≤ d.length := by
  unfold handleLongWord
  simp only [List.length_drop]
  exact Nat.sub_le _ _

theorem takeGreedy_nil_head {w n : Nat} {c : Str} {cs : List Str}
    (h : (takeGreedy w n (c :: cs)).1 = []) : ¬ (n + c.length ≤ w) := by
  intro hc
  simp [takeGreedy, if_pos hc] at h

theorem dropLeadingWs_measure_le (st : Bool) (chunks : List Str) :
    chunksMeasure (dropLeadingWs st chunks) ≤ chunksMeasure chunks := by
  cases chunks with
  | nil => exact le_refl _
  | cons c0 rest =>
    simp only [dropLeadingWs]
    split
    · rw [chunksMeasure_cons]; omega
    · exact le_refl _

theorem dropLeadingWs_mem {u : Str} (hu : isWsChunk u = false) (st : Bool)
    {chunks : List Str} (hm : u ∈ chunks) : u ∈ dropLeadingWs st chunks := by
  cases chunks with
  | nil => exact absurd hm (List.not_mem_nil u)
  | cons c0 rest =>
    simp only [dropLeadingWs]
    split
    · rename_i hcond
      rcases List.mem_cons.mp hm with rfl | hm2
      · rw [Bool.and_eq_true] at hcond
        rw [hcond.1] at hu
        cases hu
      · exact hm2
    · exact hm

theorem dropTrailingWs_mem {u : Str} (hu : isWsChunk u = false) {l : List Str}
    (hm : u ∈ l) : u ∈ dropTrailingWs l := by
  unfold dropTrailingWs
  split
  · rename_i last hlast
    split
    · rename_i hws
      have hne : l ≠ [] := by
        intro h0
        rw [h0] at hlast
        simp at hlast
      have hdecomp : l.dropLast ++ [l.getLast hne] = l := List.dropLast_append_getLast hne
      have hlast2 : l.getLast hne = last := by
        rw [List.getLast?_eq_getLast l hne] at hlast
        exact (Option.some.injEq _ _).mp hlast
      rcases List.mem_append.mp (hdecomp ▸ hm) with h1 | h2
      · exact h1
      · rcases List.mem_singleton.mp h2 with rfl
        rw [hlast2, hws] at hu
        cases hu
    · exact hm
  · exact hm

/-- The sum of the chunk lengths of the whole list splits across `++`. -/
theorem sumLen_append (a b : List Str) :
    ((a ++ b).map List.length).sum = (a.map List.length).sum + (b.map List.length).sum := by
  simp

theorem breakLong_measure_le (w : Nat) (cl : List Str) (n : Nat) (rem : List Str) :
    chunksMeasure (breakLong w cl n rem).2 ≤ chunksMeasure rem := by
  unfold breakLong
  split
  · exact le_refl _
  · split
    · rename_i d ds hlt
      rw [chunksMeasure_cons, chunksMeasure_cons]
      have := handleLongWord_snd_le w n d
      omega
    · exact le_refl _

theorem breakLong_fst_mem {u : Str} {cl : List Str} (hm : u ∈ cl) (w n : Nat)
    (rem : List Str) : u ∈ (breakLong w cl n rem).1 := by
  unfold breakLong
  split
  · exact hm
  · split
    · exact List.mem_append_left _ hm
    · exact hm

theorem breakLong_snd_mem {u : Str} {w : Nat} (hu : u.length ≤ w) {rem : List Str}
    (hm : u ∈ rem) (cl : List Str) (n : Nat) : u ∈ (breakLong w cl n rem).2 := by
  unfold breakLong
  split
  · exact hm
  · split
    · rename_i d ds hlt
      rcases List.mem_cons.mp hm with rfl | hm2
      · omega
      · exact List.mem_cons_of_mem _ hm2
    · exact hm

end PrintX

namespace PrintX

theorem chunksMeasure_pos {l : List Str} (h : l ≠ []) : 1 ≤ chunksMeasure l := by
  cases l with
  | nil => exact absurd rfl h
  | cons c rest => rw [chunksMeasure_cons]; omega

theorem greedyBreak_measure_lt {w : Nat} (hw : 1 ≤ w) {chunks1 : List Str}
    (hne : chunks1 ≠ []) :
    chunksMeasure (breakLong w (takeGreedy w 0 chunks1).1 (takeGreedy w 0 chunks1).2.1
      (takeGreedy w 0 chunks1).2.2).2 < chunksMeasure chunks1 := by
  by_cases hcl : (takeGreedy w 0 chunks1).1 = []
  · obtain ⟨d, ds, rfl⟩ : ∃ d ds, chunks1 = d :: ds := by
      cases chunks1 with
      | nil => exact absurd rfl hne
      | cons d ds => exact ⟨d, ds, rfl⟩
    obtain ⟨hn0, hrem⟩ := takeGreedy_nil w 0 (d :: ds) hcl
    have hgt : ¬ (0 + d.length ≤ w) := takeGreedy_nil_head hcl
    have hdlen : w < d.length := by omega
    rw [hcl, hn0, hrem]
    simp only [breakLong, if_pos hdlen]
    rw [chunksMeasure_cons, chunksMeasure_cons]
    have := handleLongWord_snd_lt hw hdlen
    omega
  · have hsplit : chunksMeasure chunks1 =
        chunksMeasure (takeGreedy w 0 chunks1).1 +
          chunksMeasure (takeGreedy w 0 chunks1).2.2 := by
      rw [← chunksMeasure_append, takeGreedy_append]
    have hcl_pos := chunksMeasure_pos hcl
    have hble := breakLong_measure_le w (takeGreedy w 0 chunks1).1
      (takeGreedy w 0 chunks1).2.1 (takeGreedy w 0 chunks1).2.2
    omega

theorem wrapStep_measure {w : Nat} (hw : 1 ≤ w) (st : Bool) {chunks : List Str}
    (hne : chunks ≠ []) :
    chunksMeasure (wrapStep w st chunks).2 < chunksMeasure chunks := by
  simp only [wrapStep]
  have hchunks_pos := chunksMeasure_pos hne
  by_cases hc1 : dropLeadingWs st chunks = []
  · rw [hc1]
    have hz : (breakLong w (takeGreedy w 0 ([] : List Str)).1
        (takeGreedy w 0 ([] : List Str)).2.1 (takeGreedy w 0 ([] : List Str)).2.2).2 = [] := rfl
    rw [hz]
    have hz2 : chunksMeasure ([] : List Str) = 0 := rfl
    omega
  · have h1 := greedyBreak_measure_lt hw hc1
    have h2 := dropLeadingWs_measure_le st chunks
    omega

theorem dropTrailingWs_sum_le (l : List Str) :
    ((dropTrailingWs l).map List.length).sum ≤ (l.map List.length).sum := by
  unfold dropTrailingWs
  split
  · rename_i last hlast
    split
    · have hne : l ≠ [] := by
        intro h0
        rw [h0] at hlast
        simp at hlast
      have hdecomp : l.dropLast ++ [l.getLast hne] = l := List.dropLast_append_getLast hne
      calc ((l.dropLast).map List.length).sum
          ≤ ((l.dropLast).map List.length).sum + (l.getLast hne).length := Nat.le_add_right _ _
        _ = (l.map List.length).sum := by
            conv_rhs => rw [← hdecomp]
            simp
    · exact le_refl _
  · exact le_refl _

theorem breakLong_fst_sum {w : Nat} (hw : 1 ≤ w) {cl : List Str} {n : Nat}
    (hn : n ≤ w) (hsum : (cl.map List.length).sum = n) (rem : List Str) :
    (((breakLong w cl n rem).1).map List.length).sum ≤ w := by
  unfold breakLong
  split
  · dsimp only
    omega
  · split
    · rename_i d ds hlt
      dsimp only
      rw [sumLen_append, hsum]
      have := handleLongWord_fst_len (c := n) hw d
      simp only [List.map_cons, List.map_nil, List.sum_cons, List.sum_nil]
      omega
    · dsimp only
      omega

theorem wrapStep_line_le {w : Nat} (hw : 1 ≤ w) (st : Bool) {chunks : List Str} {ln : Str}
    (h : (wrapStep w st chunks).1 = some ln) : ln.length ≤ w := by
  simp only [wrapStep] at h
  split at h
  · cases h
  · rename_i hemp
    have hln : ln = (dropTrailingWs (breakLong w (takeGreedy w 0 (dropLeadingWs st chunks)).1
        (takeGreedy w 0 (dropLeadingWs st chunks)).2.1
        (takeGreedy w 0 (dropLeadingWs st chunks)).2.2).1).flatten :=
      ((Option.some.injEq _ _).mp h).symm
    rw [hln, List.length_flatten]
    have hsum : ((takeGreedy w 0 (dropLeadingWs st chunks)).1.map List.length).sum =
        (takeGreedy w 0 (dropLeadingWs st chunks)).2.1 := by
      have := takeGreedy_len w 0 (dropLeadingWs st chunks)
      omega
    have hle : (takeGreedy w 0 (dropLeadingWs st chunks)).2.1 ≤ w :=
      takeGreedy_le w 0 (dropLeadingWs st chunks) (Nat.zero_le w)
    calc ((dropTrailingWs _).map List.length).sum
        ≤ _ := dropTrailingWs_sum_le _
      _ ≤ w := breakLong_fst_sum hw hle hsum _

theorem wrapStep_mem {w : Nat} {u : Str} (hu : isWsChunk u = false) (hulen : u.length ≤ w)
    (st : Bool) {chunks : List Str} (hm : u ∈ chunks) :
    u ∈ (wrapStep w st chunks).2 ∨
      ∃ ln, (wrapStep w st chunks).1 = some ln ∧ containsSeq u ln = true := by
  simp only [wrapStep]
  have hm1 : u ∈ dropLeadingWs st chunks := dropLeadingWs_mem hu st hm
  have hm2 : u ∈ (takeGreedy w 0 (dropLeadingWs st chunks)).1 ++
      (takeGreedy w 0 (dropLeadingWs st chunks)).2.2 := by
    rw [takeGreedy_append]
    exact hm1
  rcases List.mem_append.mp hm2 with hg1 | hg2
  · right
    have h2 := breakLong_fst_mem hg1 w (takeGreedy w 0 (dropLeadingWs st chunks)).2.1
      (takeGreedy w 0 (dropLeadingWs st chunks)).2.2
    have h3 := dropTrailingWs_mem hu h2
    have hne : ¬ (dropTrailingWs (breakLong w (takeGreedy w 0 (dropLeadingWs st chunks)).1
        (takeGreedy w 0 (dropLeadingWs st chunks)).2.1
        (takeGreedy w 0 (dropLeadingWs st chunks)).2.2).1).isEmpty = true := by
      simp only [List.isEmpty_iff]
      exact List.ne_nil_of_mem h3
    refine ⟨_, ?_, containsSeq_of_mem h3⟩
    rw [if_neg hne]
  · left
    exact breakLong_snd_mem hulen hg2 _ _

end PrintX

namespace PrintX

theorem wrapLoop_line_le {w : Nat} (hw : 1 ≤ w) : ∀ (fuel : Nat) (chunks lines : List Str),
    (∀ l ∈ lines, l.length ≤ w) → ∀ l ∈ wrapLoop w fuel chunks lines, l.length ≤ w := by
  intro fuel
  induction fuel with
  | zero =>
    intro chunks lines hl l hml
    rw [wrapLoop] at hml
    exact hl l (List.mem_reverse.mp hml)
  | succ n ih =>
    intro chunks lines hl l hml
    rw [wrapLoop] at hml
    by_cases hemp : chunks.isEmpty
    · rw [if_pos hemp] at hml
      exact hl l (List.mem_reverse.mp hml)
    · rw [if_neg hemp] at hml
      rcases hstep : wrapStep w (!lines.isEmpty) chunks with ⟨o, rem⟩
      rw [hstep] at hml
      cases o with
      | some ln =>
        refine ih rem (ln :: lines) ?_ l hml
        intro l' hl'
        rcases List.mem_cons.mp hl' with rfl | h2
        · exact wrapStep_line_le hw (!lines.isEmpty) (by rw [hstep])
        · exact hl l' h2
      | none => exact ih rem lines hl l hml

theorem wrapLoop_mem {w : Nat} (hw : 1 ≤ w) {u : Str} (hu : isWsChunk u = false)
    (hulen : u.length ≤ w) : ∀ (fuel : Nat) (chunks lines : List Str),
    chunksMeasure chunks < fuel →
    (u ∈ chunks ∨ ∃ l ∈ lines, containsSeq u l = true) →
    ∃ l ∈ wrapLoop w fuel chunks lines, containsSeq u l = true := by
  intro fuel
  induction fuel with
  | zero =>
    intro chunks lines hf
    exact absurd hf (Nat.not_lt_zero _)
  | succ n ih =>
    intro chunks lines hf hin
    rw [wrapLoop]
    by_cases hemp : chunks.isEmpty
    · rw [if_pos hemp]
      rcases hin with hin | ⟨l, hl, hc⟩
      · rw [List.isEmpty_iff] at hemp
        rw [hemp] at hin
        exact absurd hin (List.not_mem_nil u)
      · exact ⟨l, List.mem_reverse.mpr hl, hc⟩
    · rw [if_neg hemp]
      have hnenil : chunks ≠ [] := by
        intro h0
        rw [h0] at hemp
        simp at hemp
      have hmeas := wrapStep_measure hw (!lines.isEmpty) hnenil
      rcases hstep : wrapStep w (!lines.isEmpty) chunks with ⟨o, rem⟩
      rw [hstep] at hmeas
      dsimp only at hmeas
      rcases hin with hin | ⟨l, hl, hc⟩
      · rcases wrapStep_mem hu hulen (!lines.isEmpty) hin with h1 | ⟨ln, h2, h3⟩
        · rw [hstep] at h1
          cases o with
          | some ln => exact ih rem (ln :: lines) (by omega) (Or.inl h1)
          | none => exact ih rem lines (by omega) (Or.inl h1)
        · rw [hstep] at h2
          cases o with
          | none => cases h2
          | some ln' =>
            have hln : ln' = ln := (Option.some.injEq _ _).mp h2
            subst hln
            exact ih rem (ln' :: lines) (by omega)
              (Or.inr ⟨ln', List.mem_cons_self _ _, h3⟩)
      · cases o with
        | some ln =>
          exact ih rem (ln :: lines) (by omega) (Or.inr ⟨l, List.mem_cons_of_mem _ hl, hc⟩)
        | none => exact ih rem lines (by omega) (Or.inr ⟨l, hl, hc⟩)

theorem fillLines_line_le (s : Str) {w : Int} (hw : 0 < w) :
    ∃ lines, fillLines s w = .ok lines ∧ ∀ l ∈ lines, l.length ≤ w.toNat := by
  refine ⟨_, fillLines_pos s hw, ?_⟩
  exact wrapLoop_line_le (by omega) _ _ [] (by simp)

theorem fillLines_word_mem {s u : Str} {w : Int} (hw : 0 < w)
    (hmem : u ∈ splitChunks (mungeWhitespace s)) (hws : isWsChunk u = false)
    (hlen : u.length ≤ w.toNat) :
    ∃ lines, fillLines s w = .ok lines ∧ ∃ l ∈ lines, containsSeq u l = true := by
  refine ⟨_, fillLines_pos s hw, ?_⟩
  exact wrapLoop_mem (by omega) hws hlen _ _ [] (Nat.lt_succ_self _) (Or.inl hmem)

theorem runsAux_ne_nil : ∀ (cur : Option (Bool × Str)) (l : Str),
    (∀ k acc, cur = some (k, acc) → acc ≠ []) → ∀ r ∈ runsAux cur l, r ≠ [] := by
  intro cur l
  induction l generalizing cur with
  | nil =>
    intro hcur r hr
    cases cur with
    | none => exact absurd hr (List.not_mem_nil r)
    | some p =>
      obtain ⟨k, acc⟩ := p
      rcases List.mem_singleton.mp hr with rfl
      simpa using hcur k acc rfl
  | cons c cs ih =>
    intro hcur r hr
    cases cur with
    | none =>
      exact ih (some (c == ' ', [c]))
        (fun k acc h => by cases h; exact List.cons_ne_nil c []) r hr
    | some p =>
      obtain ⟨k, acc⟩ := p
      simp only [runsAux] at hr
      split at hr
      · exact ih (some (k, c :: acc))
          (fun k' acc' h => by cases h; exact List.cons_ne_nil c acc) r hr
      · rcases List.mem_cons.mp hr with rfl | hr2
        · simpa using hcur k acc rfl
        · exact ih (some (c == ' ', [c]))
            (fun k' acc' h => by cases h; exact List.cons_ne_nil c []) r hr2

theorem mem_splitChunks_of_word {s u : Str} (hu : u ∈ wordsOf s)
    (hh : hasHyphen u = false) : u ∈ splitChunks (mungeWhitespace s) := by
  unfold wordsOf at hu
  have hmem := List.mem_of_mem_filter hu
  have hws : isWsChunk u = false := by
    have := List.of_mem_filter hu
    simpa using this
  have hne : u ≠ [] :=
    runsAux_ne_nil Option.none (mungeWhitespace s) (fun k acc h => by cases h) u hmem
  unfold splitChunks
  apply List.mem_flatten.mpr
  refine ⟨chunkWord u, ?_, ?_⟩
  · exact List.mem_map.mpr ⟨u, hmem, by rw [if_neg (by rw [hws]; exact Bool.false_ne_true)]⟩
  · rw [chunkWord_single hne hh]
    exact List.mem_singleton.mpr rfl

end PrintX

namespace PrintX

theorem callOut_events_sub {α ε ρ : Type} {b : Block α ε ρ} {a : α} {ev : Event}
    (hbn : (bodyOut b).2 = Option.none) (hev : ev ∈ (bodyOut b).1) :
    ev ∈ (b.callOut a).events := by
  cases hbt : b.block_type <;> cases hfa : b.func a <;>
    simp [Block.callOut, hbt, hbn, hfa] <;> tauto

/-- C4 counterexample: with width 4 and the single word `"abcdefgh"` (8
characters), rendering succeeds but the oversized word is broken in half
(`textwrap` default `break_long_words`): no printed line contains it
unbroken, contrary to the claim that the word is kept whole on its own
line. -/
theorem claim4_long_word_counterexample :
    ((Block.mk (noneF : Unit → Except Unit Unit) [Item.plain (ofStr "abcdefgh")] 4
        BlockType.BODY []).callOut ()).result = .ok Unit.unit ∧
    ((Block.mk (noneF : Unit → Except Unit Unit) [Item.plain (ofStr "abcdefgh")] 4
        BlockType.BODY []).callOut ()).events.any (eventContains (ofStr "abcdefgh")) = false ∧
    fillLines (ofStr "abcdefgh") 4 = .ok [ofStr "abcd", ofStr "efgh"] :=
  ⟨rfl, by decide, rfl⟩

/-- C4 amended: a plain-string item containing a word longer than the width
renders without raising (the result is still the top-level action's), and
the oversized word is broken mid-word so that every wrapped physical line
has length at most the width — it is not kept whole on its own line. -/
theorem claim4_long_word_broken {α ε ρ : Type} (b : Block α ε ρ) (a : α) (s : Str)
    (ht : b.text = [Item.plain s]) (hw : 0 < b.width) :
    (b.callOut a).result = (b.func a).mapError RenderErr.act ∧
    ∃ lines, fillLines s b.width = .ok lines ∧ ∀ l ∈ lines, l.length ≤ b.width.toNat := by
  constructor
  · exact callOut_result_eq b a (Or.inl hw) (by simp [actsOkB, ht, Item.actOk])
  · exact fillLines_line_le s hw

/-- C4 amended witness. -/
theorem claim4_long_word_broken_witness :
    ((Block.mk (noneF : Unit → Except Unit Unit) [Item.plain (ofStr "abcdefgh")] 4
        BlockType.HEAD []).callOut ()).result =
      ((noneF : Unit → Except Unit Unit) ()).mapError RenderErr.act ∧
    ∃ lines, fillLines (ofStr "abcdefgh") (4 : Int) = .ok lines ∧
      ∀ l ∈ lines, l.length ≤ (4 : Int).toNat :=
  claim4_long_word_broken
    (Block.mk (noneF : Unit → Except Unit Unit) [Item.plain (ofStr "abcdefgh")] 4
      BlockType.HEAD []) () (ofStr "abcdefgh") rfl (by decide)

/-- C5 counterexample: with width 7 and text `"ab foo-bar"`, every
whitespace-delimited word has at most 7 characters, yet the word
`"foo-bar"` appears unbroken in no printed line: `textwrap`'s
`break_on_hyphens` splits the hyphenated word across lines. -/
theorem claim5_hyphen_counterexample :
    ((wordsOf (ofStr "ab foo-bar")).all (fun u => decide (u.length ≤ 7)) = true) ∧
    ((ofStr "foo-bar") ∈ wordsOf (ofStr "ab foo-bar")) ∧
    ((Block.mk (noneF : Unit → Except Unit Unit) [Item.plain (ofStr "ab foo-bar")] 7
        BlockType.BODY []).callOut ()).result = .ok Unit.unit ∧
    ((Block.mk (noneF : Unit → Except Unit Unit) [Item.plain (ofStr "ab foo-bar")] 7
        BlockType.BODY []).callOut ()).events.any (eventContains (ofStr "foo-bar")) = false :=
  ⟨by decide, by decide, rfl, by decide⟩

/-- C5 amended: for a block whose items are plain strings, every
whitespace-delimited word that contains no hyphen and is at most `width`
characters long appears unbroken in some printed line of the rendered
output (hyphenated words are excluded because `textwrap` may break them
right after a hyphen). -/
theorem claim5_words_appear_unbroken {α ε ρ : Type} (b : Block α ε ρ) (a : α)
    (hplain : ∀ it ∈ b.text, ∃ s, it = Item.plain s) (hw : 0 < b.width) :
    ∀ it ∈ b.text, ∀ u ∈ wordsOf it.str, hasHyphen u = false →
      u.length ≤ b.width.toNat →
      (b.callOut a).events.any (eventContains u) = true := by
  intro it hit u hu hh hlen
  obtain ⟨s, rfl⟩ := hplain it hit
  have hws : isWsChunk u = false := by
    unfold wordsOf at hu
    have := List.of_mem_filter hu
    simpa using this
  have hmem := mem_splitChunks_of_word hu hh
  obtain ⟨lines, hfl, l, hl, hcont⟩ := fillLines_word_mem hw hmem hws hlen
  have hacts : actsOkB b.text = true := by
    apply List.all_eq_true.mpr
    intro x hx
    obtain ⟨sx, rfl⟩ := hplain x hx
    rfl
  have hbn : (bodyOut b).2 = Option.none := bodyOut_snd_none b (Or.inl hw) hacts
  obtain ⟨i, hig⟩ := List.getElem?_of_mem hit
  have hen : ((i, Item.plain s) : Nat × Item ε) ∈ b.text.enum :=
    List.mem_enum_iff_getElem?.mpr (by simpa using hig)
  have hfl' : fillLines s b.width = Except.ok lines := hfl
  have hevit : plainLineEvent b l ∈ (itemOut b i (Item.plain s)).1 := by
    show plainLineEvent b l ∈ (match fillLines s b.width with
      | Except.error _ => (([] : List Event), some RenderErr.invalidWidth)
      | Except.ok lines => (lines.map (plainLineEvent b), Option.none)).1
    rw [hfl']
    exact List.mem_map.mpr ⟨l, hl, rfl⟩
  have hevbody : plainLineEvent b l ∈ (bodyOut b).1 := by
    rw [bodyOut, seqOuts_events_flatten (by
      intro x hx
      rcases List.mem_map.mp hx with ⟨p, hp, rfl⟩
      exact itemOut_snd_none b p.1 p.2 hw
        (List.all_eq_true.mp hacts _ (snd_mem_of_mem_enum hp)))]
    apply List.mem_flatten.mpr
    refine ⟨(itemOut b i (Item.plain s)).1, ?_, hevit⟩
    rw [List.map_map]
    exact List.mem_map.mpr ⟨(i, Item.plain s), hen, rfl⟩
  apply List.any_eq_true.mpr
  refine ⟨plainLineEvent b l, callOut_events_sub hbn hevbody, ?_⟩
  simp only [eventContains, plainLineEvent]
  exact containsSeq_append_right _
    (containsSeq_append_left _ (pyCenter_contains _ hcont))

/-- C5 amended witness: at width 5 the word `"there"` of `"hi there"`
appears unbroken in the printed output. -/
theorem claim5_words_appear_unbroken_witness :
    ((Block.mk (noneF : Unit → Except Unit Unit) [Item.plain (ofStr "hi there")] 5
        BlockType.BODY []).callOut ()).events.any (eventContains (ofStr "there")) = true :=
  claim5_words_appear_unbroken
    (Block.mk (noneF : Unit → Except Unit Unit) [Item.plain (ofStr "hi there")] 5
      BlockType.BODY []) ()
    (by
      intro it hit
      rcases List.mem_singleton.mp hit with rfl
      exact ⟨ofStr "hi there", rfl⟩)
    (by decide) (Item.plain (ofStr "hi there")) (List.mem_singleton.mpr rfl)
    (ofStr "there") (by decide) (by decide) (by decide)

end PrintX

namespace PrintX

/-! ### Stripping ANSI escape sequences -/

/-- One-pass removal of ANSI escape sequences: outside a sequence,
characters are kept and an escape character enters a sequence; inside a
sequence, characters are skipped until (and including) the terminating
`'m'` of a colour/style code. -/
def stripGo : Bool → Str → Str
  | _, [] => []
  | true, c :: cs => if c = 'm' then stripGo false cs else stripGo true cs
  | false, c :: cs => if c = escChar then stripGo true cs else c :: stripGo false cs

/-- The text content of a styled string. -/
def stripAnsi (s : Str) : Str := stripGo false s

/-- Events with printed strings reduced to their text content. -/
def stripEvent : Event → Event
  | .out s => .out (stripAnsi s)
  | e => e

/-- `AnsiStr s` holds when `s` is a concatenation of complete ANSI
colour/style sequences `ESC body m` with no `'m'` inside a body — the form
of every colorama constant and of their concatenations. -/
inductive AnsiStr : Str → Prop where
  | nil : AnsiStr []
  | seq (body rest : Str) (hb : ∀ c ∈ body, c ≠ 'm') (hr : AnsiStr rest) :
      AnsiStr (escChar :: (body ++ 'm' :: rest))

theorem stripGo_true_mfree {body : Str} (hb : ∀ c ∈ body, c ≠ 'm') (y : Str) :
    stripGo true (body ++ 'm' :: y) = stripGo false y := by
  induction body with
  | nil =>
    show stripGo true ('m' :: y) = stripGo false y
    simp [stripGo]
  | cons c cs ih =>
    show stripGo true (c :: (cs ++ 'm' :: y)) = stripGo false y
    simp only [stripGo, if_neg (hb c (List.mem_cons_self _ _))]
    exact ih (fun c' hc' => hb c' (List.mem_cons_of_mem _ hc'))

theorem strip_ansi_append {x : Str} (h : AnsiStr x) (y : Str) :
    stripGo false (x ++ y) = stripGo false y := by
  induction h with
  | nil => rfl
  | seq body rest hb hr ih =>
    show stripGo false (escChar :: ((body ++ 'm' :: rest) ++ y)) = stripGo false y
    simp only [stripGo, if_pos rfl]
    rw [List.append_assoc]
    rw [show ('m' :: rest) ++ y = 'm' :: (rest ++ y) from rfl]
    rw [stripGo_true_mfree hb]
    exact ih

theorem strip_escfree_append {x : Str} (h : ∀ c ∈ x, ¬ c = escChar) (y : Str) :
    stripGo false (x ++ y) = x ++ stripGo false y := by
  induction x with
  | nil => rfl
  | cons c cs ih =>
    show stripGo false (c :: (cs ++ y)) = c :: (cs ++ stripGo false y)
    simp only [stripGo, if_neg (h c (List.mem_cons_self _ _))]
    rw [ih (fun c' hc' => h c' (List.mem_cons_of_mem _ hc'))]

theorem ansi_styleReset : AnsiStr styleReset := by
  rw [show styleReset = escChar :: (['[', '0'] ++ 'm' :: []) from rfl]
  exact AnsiStr.seq ['[', '0'] [] (by decide) AnsiStr.nil

theorem ansi_styleBright : AnsiStr styleBright := by
  rw [show styleBright = escChar :: (['[', '1'] ++ 'm' :: []) from rfl]
  exact AnsiStr.seq ['[', '1'] [] (by decide) AnsiStr.nil

theorem ansi_styleDim : AnsiStr styleDim := by
  rw [show styleDim = escChar :: (['[', '2'] ++ 'm' :: []) from rfl]
  exact AnsiStr.seq ['[', '2'] [] (by decide) AnsiStr.nil

theorem ansi_foreGreen : AnsiStr foreGreen := by
  rw [show foreGreen = escChar :: (['[', '3', '2'] ++ 'm' :: []) from rfl]
  exact AnsiStr.seq ['[', '3', '2'] [] (by decide) AnsiStr.nil

theorem AnsiStr.app {x y : Str} (hx : AnsiStr x) (hy : AnsiStr y) : AnsiStr (x ++ y) := by
  induction hx with
  | nil => simpa using hy
  | seq body rest hb hr ih =>
    show AnsiStr (escChar :: ((body ++ 'm' :: rest) ++ y))
    rw [List.append_assoc]
    rw [show ('m' :: rest) ++ y = 'm' :: (rest ++ y) from rfl]
    exact AnsiStr.seq body (rest ++ y) hb ih

theorem stripGo_false_cons {c : Char} (h : ¬ c = escChar) (cs : Str) :
    stripGo false (c :: cs) = c :: stripGo false cs := by
  show (if c = escChar then stripGo true cs else c :: stripGo false cs) = _
  rw [if_neg h]

theorem strip_vline {st : Str} (hst : AnsiStr st) (y : Str) :
    stripGo false ((styleReset ++ st ++ ofStr "|" ++ styleReset) ++ y) =
      '|' :: stripGo false y := by
  simp only [List.append_assoc]
  rw [strip_ansi_append ansi_styleReset]
  rw [strip_ansi_append hst]
  rw [show (ofStr "|" ++ (styleReset ++ y)) = '|' :: (styleReset ++ y) from rfl]
  rw [stripGo_false_cons (show ¬ ('|' : Char) = escChar by decide)]
  rw [strip_ansi_append ansi_styleReset]

end PrintX

namespace PrintX

/-! ### Character predicates preserved by the wrapping pipeline -/

theorem all_sub {p : Char → Bool} {u v : Str} (hsub : ∀ c ∈ u, c ∈ v)
    (hv : v.all p = true) : u.all p = true := by
  rw [List.all_eq_true] at hv ⊢
  intro c hc
  exact hv c (hsub c hc)

theorem all_flatten {p : Char → Bool} : ∀ {L : List Str},
    (∀ l ∈ L, l.all p = true) → L.flatten.all p = true := by
  intro L
  induction L with
  | nil => intro _; rfl
  | cons a as ih =>
    intro h
    rw [List.flatten_cons, List.all_append]
    rw [h a (List.mem_cons_self _ _), ih (fun l hl => h l (List.mem_cons_of_mem _ hl))]
    rfl

theorem all_replicate_space {p : Char → Bool} (hsp : p ' ' = true) (k : Nat) :
    (List.replicate k ' ').all p = true := by
  rw [List.all_eq_true]
  intro c hc
  rw [List.eq_of_mem_replicate hc]
  exact hsp

theorem pyCenter_all {p : Char → Bool} (hsp : p ' ' = true) {s : Str}
    (hs : s.all p = true) (n : Int) : (pyCenter s n).all p = true := by
  rw [pyCenter]
  by_cases h : n ≤ (s.length : Int)
  · rw [if_pos h]
    exact hs
  · rw [if_neg h]
    rw [List.all_append, List.all_append]
    rw [all_replicate_space hsp, all_replicate_space hsp, hs]
    rfl

theorem munge_all {p : Char → Bool} (hsp : p ' ' = true) {s : Str}
    (hs : s.all p = true) : (mungeWhitespace s).all p = true := by
  rw [List.all_eq_true] at hs ⊢
  intro c hc
  rw [mungeWhitespace, List.mem_map] at hc
  obtain ⟨a, ha, rfl⟩ := hc
  cases h : isPyWs a with
  | true => simpa [h] using hsp
  | false => simpa [h] using hs a ha

theorem runsAux_all_some {p : Char → Bool} : ∀ (l : Str) (k : Bool) (acc : Str),
    acc.all p = true → l.all p = true →
    ∀ r ∈ runsAux (some (k, acc)) l, r.all p = true := by
  intro l
  induction l with
  | nil =>
    intro k acc hacc _ r hr
    rw [show runsAux (some (k, acc)) [] = [acc.reverse] from rfl] at hr
    rw [List.mem_singleton] at hr
    subst hr
    refine all_sub ?_ hacc
    intro c hc
    exact List.mem_reverse.mp hc
  | cons c cs ih =>
    intro k acc hacc hl r hr
    simp only [List.all_cons, Bool.and_eq_true] at hl
    obtain ⟨hpc, hcs⟩ := hl
    rw [show runsAux (some (k, acc)) (c :: cs) =
        (if ((c == ' ') == k) = true then runsAux (some (k, c :: acc)) cs
         else acc.reverse :: runsAux (some ((c == ' '), [c])) cs) from rfl] at hr
    by_cases hk : ((c == ' ') == k) = true
    · rw [if_pos hk] at hr
      refine ih k (c :: acc) ?_ hcs r hr
      rw [List.all_cons, hpc, hacc]
      rfl
    · rw [if_neg hk] at hr
      rcases List.mem_cons.mp hr with rfl | h2
      · refine all_sub ?_ hacc
        intro c' hc'
        exact List.mem_reverse.mp hc'
      · refine ih (c == ' ') [c] ?_ hcs r h2
        rw [List.all_cons, hpc]
        rfl

theorem runsAux_all_none {p : Char → Bool} {l : Str} (hl : l.all p = true) :
    ∀ r ∈ runsAux Option.none l, r.all p = true := by
  cases l with
  | nil =>
    intro r hr
    cases hr
  | cons c cs =>
    simp only [List.all_cons, Bool.and_eq_true] at hl
    obtain ⟨hpc, hcs⟩ := hl
    rw [show runsAux Option.none (c :: cs) = runsAux (some ((c == ' '), [c])) cs from rfl]
    refine runsAux_all_some cs (c == ' ') [c] ?_ hcs
    rw [List.all_cons, hpc]
    rfl

theorem chunkWordGo_chars {w : Str} : ∀ (fuel s : Nat) (r : Str),
    r ∈ chunkWordGo w fuel s → ∀ c ∈ r, c ∈ w := by
  intro fuel
  induction fuel with
  | zero =>
    intro s r hr
    cases hr
  | succ f ih =>
    intro s r hr c hc
    rw [show chunkWordGo w (f + 1) s =
        (if s < w.length then
          (w.drop s).take (nextBreak w s - s) :: chunkWordGo w f (nextBreak w s)
         else []) from rfl] at hr
    by_cases hs : s < w.length
    · rw [if_pos hs] at hr
      rcases List.mem_cons.mp hr with rfl | h2
      · exact List.drop_subset _ _ (List.take_subset _ _ hc)
      · exact ih (nextBreak w s) r h2 c hc
    · rw [if_neg hs] at hr
      cases hr

theorem splitChunks_all {p : Char → Bool} {t : Str} (ht : t.all p = true) :
    ∀ r ∈ splitChunks t, r.all p = true := by
  intro r hr
  rw [splitChunks, List.mem_flatten] at hr
  obtain ⟨l, hl, hrl⟩ := hr
  rw [List.mem_map] at hl
  obtain ⟨run, hrun, rfl⟩ := hl
  have hrunall : run.all p = true := runsAux_all_none ht run hrun
  by_cases hws : isWsChunk run = true
  · rw [if_pos hws, List.mem_singleton] at hrl
    subst hrl
    exact hrunall
  · rw [if_neg hws] at hrl
    exact all_sub (chunkWordGo_chars run.length 0 r hrl) hrunall

theorem dropLeadingWs_subset (st : Bool) (chunks : List Str) :
    ∀ x ∈ dropLeadingWs st chunks, x ∈ chunks := by
  intro x hx
  cases chunks with
  | nil => exact hx
  | cons c0 rest =>
    rw [show dropLeadingWs st (c0 :: rest) =
        (if isWsChunk c0 && st then rest else c0 :: rest) from rfl] at hx
    by_cases h : (isWsChunk c0 && st) = true
    · rw [if_pos h] at hx
      exact List.mem_cons_of_mem _ hx
    · rw [if_neg h] at hx
      exact hx

theorem dropTrailingWs_subset (l : List Str) : ∀ x ∈ dropTrailingWs l, x ∈ l := by
  intro x hx
  rw [dropTrailingWs] at hx
  split at hx
  · split at hx
    · exact List.dropLast_subset _ hx
    · exact hx
  · exact hx

theorem handleLongWord_fst_sub (w n : Nat) (d : Str) :
    ∀ c ∈ (handleLongWord w n d).1, c ∈ d := by
  intro c hc
  exact List.take_subset _ _ hc

theorem handleLongWord_snd_sub (w n : Nat) (d : Str) :
    ∀ c ∈ (handleLongWord w n d).2, c ∈ d := by
  intro c hc
  exact List.drop_subset _ _ hc

theorem breakLong_all {p : Char → Bool} (w n : Nat) {cl rem : List Str}
    (hcl : ∀ x ∈ cl, x.all p = true) (hrem : ∀ x ∈ rem, x.all p = true) :
    (∀ x ∈ (breakLong w cl n rem).1, x.all p = true) ∧
    (∀ x ∈ (breakLong w cl n rem).2, x.all p = true) := by
  cases rem with
  | nil => exact ⟨hcl, hrem⟩
  | cons d ds =>
    have hd : d.all p = true := hrem d (List.mem_cons_self _ _)
    have hds : ∀ x ∈ ds, x.all p = true := fun x hx => hrem x (List.mem_cons_of_mem _ hx)
    rw [show breakLong w cl n (d :: ds) =
        (if w < d.length then
          (cl ++ [(handleLongWord w n d).1], (handleLongWord w n d).2 :: ds)
         else (cl, d :: ds)) from rfl]
    by_cases h : w < d.length
    · rw [if_pos h]
      constructor
      · intro x hx
        rcases List.mem_append.mp hx with h1 | h1
        · exact hcl x h1
        · rw [List.mem_singleton] at h1
          subst h1
          exact all_sub (handleLongWord_fst_sub w n d) hd
      · intro x hx
        rcases List.mem_cons.mp hx with rfl | h1
        · exact all_sub (handleLongWord_snd_sub w n d) hd
        · exact hds x h1
    · rw [if_neg h]
      exact ⟨hcl, hrem⟩

theorem wrapStep_all {p : Char → Bool} (w : Nat) (st : Bool) {chunks : List Str}
    (h : ∀ ch ∈ chunks, ch.all p = true) :
    (∀ ln, (wrapStep w st chunks).1 = some ln → ln.all p = true) ∧
    (∀ ch ∈ (wrapStep w st chunks).2, ch.all p = true) := by
  have h1 : ∀ ch ∈ dropLeadingWs st chunks, ch.all p = true :=
    fun ch hch => h ch (dropLeadingWs_subset st chunks ch hch)
  have happ := takeGreedy_append w 0 (dropLeadingWs st chunks)
  have hg1 : ∀ ch ∈ (takeGreedy w 0 (dropLeadingWs st chunks)).1, ch.all p = true := by
    intro ch hch
    refine h1 ch ?_
    rw [← happ]
    exact List.mem_append.mpr (Or.inl hch)
  have hg2 : ∀ ch ∈ (takeGreedy w 0 (dropLeadingWs st chunks)).2.2, ch.all p = true := by
    intro ch hch
    refine h1 ch ?_
    rw [← happ]
    exact List.mem_append.mpr (Or.inr hch)
  have hbl := breakLong_all w (takeGreedy w 0 (dropLeadingWs st chunks)).2.1 hg1 hg2
  constructor
  · intro ln hln
    simp only [wrapStep] at hln
    split at hln
    · cases hln
    · have hln2 : ln = (dropTrailingWs (breakLong w
          (takeGreedy w 0 (dropLeadingWs st chunks)).1
          (takeGreedy w 0 (dropLeadingWs st chunks)).2.1
          (takeGreedy w 0 (dropLeadingWs st chunks)).2.2).1).flatten :=
        ((Option.some.injEq _ _).mp hln).symm
      rw [hln2]
      refine all_flatten ?_
      intro l hl
      exact hbl.1 l (dropTrailingWs_subset _ l hl)
  · intro ch hch
    simp only [wrapStep] at hch
    exact hbl.2 ch hch

theorem wrapLoop_all {p : Char → Bool} {w : Nat} : ∀ (fuel : Nat) (chunks lines : List Str),
    (∀ ch ∈ chunks, ch.all p = true) → (∀ l ∈ lines, l.all p = true) →
    ∀ l ∈ wrapLoop w fuel chunks lines, l.all p = true := by
  intro fuel
  induction fuel with
  | zero =>
    intro chunks lines _ hl l hml
    rw [wrapLoop] at hml
    exact hl l (List.mem_reverse.mp hml)
  | succ n ih =>
    intro chunks lines hch hl l hml
    rw [wrapLoop] at hml
    by_cases hemp : chunks.isEmpty
    · rw [if_pos hemp] at hml
      exact hl l (List.mem_reverse.mp hml)
    · rw [if_neg hemp] at hml
      have hstepall := wrapStep_all w (!lines.isEmpty) hch
      rcases hstep : wrapStep w (!lines.isEmpty) chunks with ⟨o, rem⟩
      rw [hstep] at hml hstepall
      cases o with
      | some ln =>
        refine ih rem (ln :: lines) (fun ch hch2 => hstepall.2 ch hch2) ?_ l hml
        intro l' hl'
        rcases List.mem_cons.mp hl' with rfl | h2
        · exact hstepall.1 l' rfl
        · exact hl l' h2
      | none => exact ih rem lines (fun ch hch2 => hstepall.2 ch hch2) hl l hml

theorem fillLines_all {p : Char → Bool} (hsp : p ' ' = true) {s : Str}
    (hs : s.all p = true) {w : Int} {lines : List Str}
    (h : fillLines s w = .ok lines) : ∀ l ∈ lines, l.all p = true := by
  rw [fillLines, wrapChunks] at h
  by_cases hw : w ≤ 0
  · rw [if_pos hw] at h
    cases h
  · rw [if_neg hw] at h
    have hlines : lines = wrapLoop w.toNat
        (chunksMeasure (splitChunks (mungeWhitespace s)) + 1)
        (splitChunks (mungeWhitespace s)) [] := ((Except.ok.injEq _ _).mp h).symm
    rw [hlines]
    refine wrapLoop_all _ _ _ (splitChunks_all (munge_all hsp hs)) ?_
    intro l hl
    cases hl

end PrintX

namespace PrintX

/-! ### The text content of each printed line -/

/-- `s` contains no escape character. -/
def escFree (s : Str) : Bool := s.all (fun c => !(c == escChar))

theorem strip_reset_nil : stripGo false styleReset = [] := by decide

theorem strip_bar (y : Str) : stripGo false (ofStr "|" ++ y) = '|' :: stripGo false y := by
  rw [show ofStr "|" ++ y = '|' :: y from rfl]
  exact stripGo_false_cons (by decide) y

theorem strip_escfree {x : Str} (h : ∀ c ∈ x, ¬ c = escChar) : stripGo false x = x := by
  have h2 := strip_escfree_append h []
  rw [show stripGo false ([] : Str) = [] from rfl, List.append_nil] at h2
  exact h2

theorem pyCenter_chars {l : Str} (hl : ∀ c ∈ l, ¬ c = escChar) (n : Int) :
    ∀ c ∈ pyCenter l n, ¬ c = escChar := by
  intro c hc
  have hall : l.all (fun c => !(c == escChar)) = true := by
    rw [List.all_eq_true]
    intro x hx
    simpa using hl x hx
  have hca := pyCenter_all (by decide) hall n
  rw [List.all_eq_true] at hca
  have h2 := hca c hc
  simpa using h2

theorem dashes_chars (n : Int) : ∀ c ∈ pyStrMul '-' n, ¬ c = escChar := by
  intro c hc
  rw [pyStrMul] at hc
  rw [List.eq_of_mem_replicate hc]
  decide

theorem sepInner_chars (n : Int) :
    ∀ c ∈ ofStr "|" ++ (pyStrMul '-' n ++ ofStr "|"), ¬ c = escChar := by
  intro c hc
  rcases List.mem_append.mp hc with h | h
  · rw [List.mem_singleton.mp h]
    decide
  · rcases List.mem_append.mp h with h1 | h1
    · exact dashes_chars n c h1
    · rw [List.mem_singleton.mp h1]
      decide

theorem plus_hline_chars (n : Int) :
    ∀ c ∈ ofStr "+" ++ (pyStrMul '-' n ++ ofStr "+"), ¬ c = escChar := by
  intro c hc
  rcases List.mem_append.mp hc with h | h
  · rw [List.mem_singleton.mp h]
    decide
  · rcases List.mem_append.mp h with h1 | h1
    · exact dashes_chars n c h1
    · rw [List.mem_singleton.mp h1]
      decide

theorem success_chars : ∀ c ∈ ofStr "success", ¬ c = escChar := by decide

theorem strip_plainLine {α ε ρ : Type} {b : Block α ε ρ} (hst : AnsiStr b.styles)
    {l : Str} (hl : ∀ c ∈ l, ¬ c = escChar) :
    stripEvent (plainLineEvent b l) =
      Event.out ('|' :: (pyCenter l (b.width - 2) ++ ['|'])) := by
  show Event.out (stripAnsi (b.get_vline ++ b.styles ++ pyCenter l (b.width - 2)
      ++ b.get_vline)) = _
  refine congrArg Event.out ?_
  rw [stripAnsi]
  simp only [Block.get_vline, List.append_assoc]
  rw [strip_ansi_append ansi_styleReset, strip_ansi_append hst, strip_bar,
    strip_ansi_append ansi_styleReset, strip_ansi_append hst,
    strip_escfree_append (pyCenter_chars hl (b.width - 2)),
    strip_ansi_append ansi_styleReset, strip_ansi_append hst, strip_bar, strip_reset_nil]

theorem strip_dimLine {α ε ρ : Type} {b : Block α ε ρ} (hst : AnsiStr b.styles)
    {l : Str} (hl : ∀ c ∈ l, ¬ c = escChar) :
    stripEvent (dimLineEvent b l) =
      Event.out ('|' :: (pyCenter l (b.width - 2) ++ ['|'])) := by
  show Event.out (stripAnsi (b.get_vline ++ b.styles ++ styleDim
      ++ pyCenter l (b.width - 2) ++ b.get_vline)) = _
  refine congrArg Event.out ?_
  rw [stripAnsi]
  simp only [Block.get_vline, List.append_assoc]
  rw [strip_ansi_append ansi_styleReset, strip_ansi_append hst, strip_bar,
    strip_ansi_append ansi_styleReset, strip_ansi_append hst,
    strip_ansi_append ansi_styleDim,
    strip_escfree_append (pyCenter_chars hl (b.width - 2)),
    strip_ansi_append ansi_styleReset, strip_ansi_append hst, strip_bar, strip_reset_nil]

theorem strip_successLine {α ε ρ : Type} {b : Block α ε ρ} (hst : AnsiStr b.styles) :
    stripEvent (successLineEvent b) =
      Event.out ('|' :: (pyCenter (ofStr "success") (b.width - 2) ++ ['|'])) := by
  show Event.out (stripAnsi (b.styles ++ b.get_vline ++ Block.get_success_str b.width
      ++ b.get_vline)) = _
  refine congrArg Event.out ?_
  rw [stripAnsi]
  simp only [Block.get_vline, Block.get_success_str, List.append_assoc]
  rw [strip_ansi_append hst, strip_ansi_append ansi_styleReset, strip_ansi_append hst,
    strip_bar, strip_ansi_append ansi_styleReset, strip_ansi_append ansi_styleReset,
    strip_ansi_append ansi_styleBright, strip_ansi_append ansi_foreGreen,
    strip_escfree_append (pyCenter_chars success_chars (b.width - 2)),
    strip_ansi_append ansi_styleReset, strip_ansi_append ansi_styleReset,
    strip_ansi_append hst, strip_bar, strip_reset_nil]

theorem strip_sepLine {α ε ρ : Type} {b : Block α ε ρ} (hst : AnsiStr b.styles) :
    stripEvent (sepLineEvent b) =
      Event.out ('|' :: (pyCenter (ofStr "|" ++ (pyStrMul '-' (Int.tdiv (b.width - 4) 2)
        ++ ofStr "|")) (b.width - 2) ++ ['|'])) := by
  show Event.out (stripAnsi (b.get_vline ++ b.styles ++ styleDim
      ++ pyCenter (ofStr "|" ++ pyStrMul '-' (Int.tdiv (b.width - 4) 2) ++ ofStr "|")
        (b.width - 2)
      ++ b.get_vline)) = _
  refine congrArg Event.out ?_
  rw [stripAnsi]
  simp only [Block.get_vline, List.append_assoc]
  rw [strip_ansi_append ansi_styleReset, strip_ansi_append hst, strip_bar,
    strip_ansi_append ansi_styleReset, strip_ansi_append hst,
    strip_ansi_append ansi_styleDim,
    strip_escfree_append
      (pyCenter_chars (sepInner_chars (Int.tdiv (b.width - 4) 2)) (b.width - 2)),
    strip_ansi_append ansi_styleReset, strip_ansi_append hst, strip_bar, strip_reset_nil]

theorem strip_hl_plus {α ε ρ : Type} {b : Block α ε ρ} (hst : AnsiStr b.styles) :
    stripEvent (Event.out (b.styles ++ Block.get_hline b.width (ofStr "+"))) =
      Event.out (ofStr "+" ++ (pyStrMul '-' (b.width - 2) ++ ofStr "+")) := by
  show Event.out (stripAnsi (b.styles ++ Block.get_hline b.width (ofStr "+"))) = _
  refine congrArg Event.out ?_
  rw [stripAnsi]
  simp only [Block.get_hline, List.append_assoc]
  rw [strip_ansi_append hst, strip_escfree (plus_hline_chars (b.width - 2))]

theorem strip_hl_vline {α ε ρ : Type} {b : Block α ε ρ} (hst : AnsiStr b.styles) :
    stripEvent (Event.out (b.styles ++ Block.get_hline b.width b.get_vline)) =
      Event.out ('|' :: (pyStrMul '-' (b.width - 2) ++ ['|'])) := by
  show Event.out (stripAnsi (b.styles ++ Block.get_hline b.width b.get_vline)) = _
  refine congrArg Event.out ?_
  rw [stripAnsi]
  simp only [Block.get_hline, Block.get_vline, List.append_assoc]
  rw [strip_ansi_append hst, strip_ansi_append ansi_styleReset, strip_ansi_append hst,
    strip_bar, strip_ansi_append ansi_styleReset,
    strip_escfree_append (dashes_chars (b.width - 2)),
    strip_ansi_append ansi_styleReset, strip_ansi_append hst, strip_bar, strip_reset_nil]

end PrintX

namespace PrintX

/-! ### Style noninterference -/

theorem seqOuts_map_strip_congr {A er : Type} (f g : A → List Event × Option er) :
    ∀ (L : List A),
    (∀ x ∈ L, (f x).1.map stripEvent = (g x).1.map stripEvent ∧ (f x).2 = (g x).2) →
    (seqOuts (L.map f)).1.map stripEvent = (seqOuts (L.map g)).1.map stripEvent ∧
    (seqOuts (L.map f)).2 = (seqOuts (L.map g)).2 := by
  intro L
  induction L with
  | nil => intro _; exact ⟨rfl, rfl⟩
  | cons x xs ih =>
    intro h
    have hx := h x (List.mem_cons_self _ _)
    have hxs := ih (fun y hy => h y (List.mem_cons_of_mem _ hy))
    rcases hfx : f x with ⟨evf, of⟩
    rcases hgx : g x with ⟨evg, og⟩
    rw [hfx, hgx] at hx
    dsimp only at hx
    obtain ⟨hev, ho⟩ := hx
    rw [List.map_cons, List.map_cons, hfx, hgx]
    cases of with
    | some e =>
      cases og with
      | none => cases ho
      | some e2 =>
        have he : e = e2 := Option.some.inj ho
        subst he
        exact ⟨hev, rfl⟩
    | none =>
      cases og with
      | some e2 => cases ho
      | none =>
        constructor
        · show (evf ++ (seqOuts (xs.map f)).1).map stripEvent =
            (evg ++ (seqOuts (xs.map g)).1).map stripEvent
          rw [List.map_append, List.map_append, hev, hxs.1]
        · show (seqOuts (xs.map f)).2 = (seqOuts (xs.map g)).2
          exact hxs.2

theorem pairLineOut_strip_congr {α ε ρ : Type} {b1 b2 : Block α ε ρ}
    (hw : b1.width = b2.width) (h1 : AnsiStr b1.styles) (h2 : AnsiStr b2.styles)
    (idx : Nat) (act : Except ε Unit) {l : Str} (hl : ∀ c ∈ l, ¬ c = escChar) :
    (pairLineOut b1 idx act l).1.map stripEvent =
      (pairLineOut b2 idx act l).1.map stripEvent ∧
    (pairLineOut b1 idx act l).2 = (pairLineOut b2 idx act l).2 := by
  cases act with
  | error e =>
    refine ⟨?_, rfl⟩
    show List.map stripEvent [dimLineEvent b1 l, Event.invokeInline idx] =
      List.map stripEvent [dimLineEvent b2 l, Event.invokeInline idx]
    simp only [List.map_cons, List.map_nil]
    rw [strip_dimLine h1 hl, strip_dimLine h2 hl, hw]
  | ok u =>
    refine ⟨?_, rfl⟩
    show List.map stripEvent [dimLineEvent b1 l, Event.invokeInline idx, Event.out cursorUp,
        successLineEvent b1, sepLineEvent b1] =
      List.map stripEvent [dimLineEvent b2 l, Event.invokeInline idx, Event.out cursorUp,
        successLineEvent b2, sepLineEvent b2]
    simp only [List.map_cons, List.map_nil]
    rw [strip_dimLine h1 hl, strip_dimLine h2 hl, strip_successLine h1, strip_successLine h2,
      strip_sepLine h1, strip_sepLine h2, hw]

theorem escfree_line_chars {s : Str} (hs : escFree s = true) {w : Int} {lines : List Str}
    (hfl : fillLines s w = Except.ok lines) {l : Str} (hl : l ∈ lines) :
    ∀ c ∈ l, ¬ c = escChar := by
  have hlf := fillLines_all (show ((fun c => !(c == escChar)) ' ') = true by decide) hs hfl l hl
  rw [List.all_eq_true] at hlf
  intro c hc
  simpa using hlf c hc

theorem itemOut_strip_congr {α ε ρ : Type} {b1 b2 : Block α ε ρ}
    (hw : b1.width = b2.width) (h1 : AnsiStr b1.styles) (h2 : AnsiStr b2.styles)
    (idx : Nat) (it : Item ε) (hit : escFree it.str = true) :
    (itemOut b1 idx it).1.map stripEvent = (itemOut b2 idx it).1.map stripEvent ∧
    (itemOut b1 idx it).2 = (itemOut b2 idx it).2 := by
  cases it with
  | plain s =>
    cases hfl : fillLines s b1.width with
    | error u =>
      have hfl2 : fillLines s b2.width = Except.error u := by
        rw [← hw]
        exact hfl
      have e1 : itemOut b1 idx (Item.plain s) =
          (([] : List Event), some (RenderErr.invalidWidth : RenderErr ε)) := by
        show (match fillLines s b1.width with
          | Except.error _ => (([] : List Event), some RenderErr.invalidWidth)
          | Except.ok lines => (lines.map (plainLineEvent b1), Option.none)) = _
        rw [hfl]
      have e2 : itemOut b2 idx (Item.plain s) =
          (([] : List Event), some (RenderErr.invalidWidth : RenderErr ε)) := by
        show (match fillLines s b2.width with
          | Except.error _ => (([] : List Event), some RenderErr.invalidWidth)
          | Except.ok lines => (lines.map (plainLineEvent b2), Option.none)) = _
        rw [hfl2]
      rw [e1, e2]
      exact ⟨rfl, rfl⟩
    | ok lines =>
      have hfl2 : fillLines s b2.width = Except.ok lines := by
        rw [← hw]
        exact hfl
      have e1 : itemOut b1 idx (Item.plain s) =
          (lines.map (plainLineEvent b1), (Option.none : Option (RenderErr ε))) := by
        show (match fillLines s b1.width with
          | Except.error _ => (([] : List Event), some RenderErr.invalidWidth)
          | Except.ok lines => (lines.map (plainLineEvent b1), Option.none)) = _
        rw [hfl]
      have e2 : itemOut b2 idx (Item.plain s) =
          (lines.map (plainLineEvent b2), (Option.none : Option (RenderErr ε))) := by
        show (match fillLines s b2.width with
          | Except.error _ => (([] : List Event), some RenderErr.invalidWidth)
          | Except.ok lines => (lines.map (plainLineEvent b2), Option.none)) = _
        rw [hfl2]
      rw [e1, e2]
      refine ⟨?_, rfl⟩
      rw [List.map_map, List.map_map]
      refine List.map_congr_left ?_
      intro l hl
      have hlc : ∀ c ∈ l, ¬ c = escChar := escfree_line_chars hit hfl hl
      show stripEvent (plainLineEvent b1 l) = stripEvent (plainLineEvent b2 l)
      rw [strip_plainLine h1 hlc, strip_plainLine h2 hlc, hw]
  | withAct s act =>
    cases hfl : fillLines s b1.width with
    | error u =>
      have hfl2 : fillLines s b2.width = Except.error u := by
        rw [← hw]
        exact hfl
      have e1 : itemOut b1 idx (Item.withAct s act) =
          (([] : List Event), some (RenderErr.invalidWidth : RenderErr ε)) := by
        show (match fillLines s b1.width with
          | Except.error _ => (([] : List Event), some RenderErr.invalidWidth)
          | Except.ok lines => seqOuts (lines.map (pairLineOut b1 idx act))) = _
        rw [hfl]
      have e2 : itemOut b2 idx (Item.withAct s act) =
          (([] : List Event), some (RenderErr.invalidWidth : RenderErr ε)) := by
        show (match fillLines s b2.width with
          | Except.error _ => (([] : List Event), some RenderErr.invalidWidth)
          | Except.ok lines => seqOuts (lines.map (pairLineOut b2 idx act))) = _
        rw [hfl2]
      rw [e1, e2]
      exact ⟨rfl, rfl⟩
    | ok lines =>
      have hfl2 : fillLines s b2.width = Except.ok lines := by
        rw [← hw]
        exact hfl
      have e1 : itemOut b1 idx (Item.withAct s act) =
          seqOuts (lines.map (pairLineOut b1 idx act)) := by
        show (match fillLines s b1.width with
          | Except.error _ => (([] : List Event), some RenderErr.invalidWidth)
          | Except.ok lines => seqOuts (lines.map (pairLineOut b1 idx act))) = _
        rw [hfl]
      have e2 : itemOut b2 idx (Item.withAct s act) =
          seqOuts (lines.map (pairLineOut b2 idx act)) := by
        show (match fillLines s b2.width with
          | Except.error _ => (([] : List Event), some RenderErr.invalidWidth)
          | Except.ok lines => seqOuts (lines.map (pairLineOut b2 idx act))) = _
        rw [hfl2]
      rw [e1, e2]
      refine seqOuts_map_strip_congr _ _ lines ?_
      intro l hl
      have hlc : ∀ c ∈ l, ¬ c = escChar := escfree_line_chars hit hfl hl
      exact pairLineOut_strip_congr hw h1 h2 idx act hlc

theorem bodyOut_strip_congr {α ε ρ : Type} {b1 b2 : Block α ε ρ}
    (ht : b1.text = b2.text) (hw : b1.width = b2.width)
    (h1 : AnsiStr b1.styles) (h2 : AnsiStr b2.styles)
    (hesc : b1.text.all (fun it => escFree it.str) = true) :
    (bodyOut b1).1.map stripEvent = (bodyOut b2).1.map stripEvent ∧
    (bodyOut b1).2 = (bodyOut b2).2 := by
  rw [bodyOut, bodyOut, ← ht]
  refine seqOuts_map_strip_congr _ _ b1.text.enum ?_
  intro p hp
  have hmem : p.2 ∈ b1.text := snd_mem_of_mem_enum hp
  have hescit : escFree p.2.str = true := by
    rw [List.all_eq_true] at hesc
    exact hesc p.2 hmem
  exact itemOut_strip_congr hw h1 h2 p.1 p.2 hescit

end PrintX

namespace PrintX

/-- C9: styles are purely cosmetic — for two blocks that agree on `func`,
`text`, `width` and `block_type` and differ only in their (well-formed
ANSI) styles descriptor, with escape-free item text, the two renders print
event sequences that are equal after stripping ANSI escape sequences (same
wrapped lines, same centering, same border lengths) and return the same
result. -/
theorem claim9_styles_cosmetic {α ε ρ : Type} (b1 b2 : Block α ε ρ) (a : α)
    (hf : b1.func = b2.func) (ht : b1.text = b2.text) (hw : b1.width = b2.width)
    (hbt : b1.block_type = b2.block_type)
    (h1 : AnsiStr b1.styles) (h2 : AnsiStr b2.styles)
    (hesc : b1.text.all (fun it => escFree it.str) = true) :
    (b1.callOut a).events.map stripEvent = (b2.callOut a).events.map stripEvent ∧
    (b1.callOut a).result = (b2.callOut a).result := by
  have hbody := bodyOut_strip_congr ht hw h1 h2 hesc
  have hhlp : stripEvent (Event.out (b1.styles ++ Block.get_hline b1.width (ofStr "+"))) =
      stripEvent (Event.out (b2.styles ++ Block.get_hline b2.width (ofStr "+"))) := by
    rw [strip_hl_plus h1, strip_hl_plus h2, hw]
  have hhlv : stripEvent (Event.out (b1.styles ++ Block.get_hline b1.width b1.get_vline)) =
      stripEvent (Event.out (b2.styles ++ Block.get_hline b2.width b2.get_vline)) := by
    rw [strip_hl_vline h1, strip_hl_vline h2, hw]
  have hsucc : stripEvent (successLineEvent b1) = stripEvent (successLineEvent b2) := by
    rw [strip_successLine h1, strip_successLine h2, hw]
  rcases hbo1 : bodyOut b1 with ⟨ev1, o1⟩
  rcases hbo2 : bodyOut b2 with ⟨ev2, o2⟩
  rw [hbo1, hbo2] at hbody
  dsimp only at hbody
  obtain ⟨hev, ho⟩ := hbody
  subst ho
  cases hb : b1.block_type with
  | HEAD =>
    have hb2 : b2.block_type = BlockType.HEAD := by rw [← hbt, hb]
    simp only [Block.callOut, hb, hb2, hbo1, hbo2, ← hf]
    cases o1 with
    | some e =>
      refine ⟨?_, rfl⟩
      simp only [List.map_append, List.map_cons, List.map_nil]
      rw [hev, hhlp]
    | none =>
      cases hfa : b1.func a with
      | ok v =>
        refine ⟨?_, rfl⟩
        simp only [List.map_append, List.map_cons, List.map_nil]
        rw [hev, hhlp]
      | error e =>
        refine ⟨?_, rfl⟩
        simp only [List.map_append, List.map_cons, List.map_nil]
        rw [hev, hhlp]
  | TAIL =>
    have hb2 : b2.block_type = BlockType.TAIL := by rw [← hbt, hb]
    simp only [Block.callOut, hb, hb2, hbo1, hbo2, ← hf]
    cases o1 with
    | some e =>
      refine ⟨?_, rfl⟩
      simp only [List.map_append, List.map_cons, List.map_nil]
      rw [hev, hhlp]
    | none =>
      cases hfa : b1.func a with
      | ok v =>
        refine ⟨?_, rfl⟩
        simp only [List.map_append, List.map_cons, List.map_nil]
        rw [hev, hhlp]
      | error e =>
        refine ⟨?_, rfl⟩
        simp only [List.map_append, List.map_cons, List.map_nil]
        rw [hev, hhlp]
  | BODY =>
    have hb2 : b2.block_type = BlockType.BODY := by rw [← hbt, hb]
    simp only [Block.callOut, hb, hb2, hbo1, hbo2, ← hf]
    cases o1 with
    | some e => exact ⟨hev, rfl⟩
    | none =>
      cases hfa : b1.func a with
      | ok v =>
        refine ⟨?_, rfl⟩
        simp only [List.map_append, List.map_cons, List.map_nil]
        rw [hev, hhlv, hsucc]
      | error e =>
        refine ⟨?_, rfl⟩
        simp only [List.map_append, List.map_cons, List.map_nil]
        rw [hev, hhlv]

end PrintX

namespace PrintX

/-- C9 witness: a default-styled (`BODY`, empty styles) block and an
explicitly `BRIGHT`-styled block with the same text, width and action
render to the same stripped event sequence and the same result. -/
theorem claim9_styles_cosmetic_witness :
    (((Block.mk (fun _ : Unit => Except.ok 7 : Unit → Except Unit Nat)
        [Item.plain (ofStr "hi")] 6 BlockType.BODY []).callOut
          Unit.unit).events.map stripEvent =
      ((Block.mk (fun _ : Unit => Except.ok 7 : Unit → Except Unit Nat)
        [Item.plain (ofStr "hi")] 6 BlockType.BODY styleBright).callOut
          Unit.unit).events.map stripEvent) ∧
    ((Block.mk (fun _ : Unit => Except.ok 7 : Unit → Except Unit Nat)
        [Item.plain (ofStr "hi")] 6 BlockType.BODY []).callOut Unit.unit).result =
      ((Block.mk (fun _ : Unit => Except.ok 7 : Unit → Except Unit Nat)
        [Item.plain (ofStr "hi")] 6 BlockType.BODY styleBright).callOut
          Unit.unit).result :=
  claim9_styles_cosmetic
    (Block.mk (fun _ : Unit => Except.ok 7) [Item.plain (ofStr "hi")] 6 BlockType.BODY [])
    (Block.mk (fun _ : Unit => Except.ok 7) [Item.plain (ofStr "hi")] 6 BlockType.BODY
      styleBright)
    Unit.unit rfl rfl rfl rfl AnsiStr.nil ansi_styleBright (by decide)

end PrintX
